import Mathlib

/-!
# Rule 30 pseudo-random generator (`src/src/prng.c`)

A shallow embedding of the automaton engine of `prng.c` and the properties of
its three public operations `prng30_init`, `prng30_step`, `prng30_generate`.

Conventions of the embedding.

* C `int` values (`size`, `current_row`, `nbits`, loop counters used in index
  arithmetic) are `Int`; `%` and `/` on them are the truncating `Int.tmod` and
  `Int.tdiv` of C.  The index arithmetic is modelled without wrap-around; the one
  `int` expression whose wrap-around is modelled is `width * width`, the argument
  of `calloc` (`calloc_cells`).
* `prng30_init` is embedded on a buffer of `width * width` cells, which is what
  `calloc` returns while that product fits an `int` (`width ≤ 46340`, lemma
  `calloc_cells_eq`); `prng30_init_with` is the same function on a buffer of any
  given length, and `prng30_step_checked` is `prng30_step` failing on an access
  outside the buffer.
* `uint8_t` cells are `Nat` with an explicit `% 256` where a value is stored into
  a `uint8_t`; `uint64_t` values are `Nat` with an explicit `% 2 ^ 64` where the
  code can wrap.
* The buffer `rows` is a `List Nat`; `rd`/`wr` are the array read and write.
* `calloc` is taken to succeed (the failing branch calls `exit(1)` and returns no
  state).
* A function that mutates `*st` returns the new state.
* The transition `create_next_iteration` of the standalone program `rule_30.c` is
  embedded as well, on its grid `int present[][MAX]` stored row by row.
-/

namespace Prng30

/-- The record `prng30_state` of `include/prng30.h`. -/
structure prng30_state where
  size : Int
  rows : List Nat
  current_row : Int
deriving DecidableEq, Repr

/-- Array read `rows[i]`. -/
def rd (rows : List Nat) (i : Int) : Nat := rows.getD i.toNat 0

/-- Array write `rows[i] = v`. -/
def wr (rows : List Nat) (i : Int) (v : Nat) : List Nat := rows.set i.toNat v

/-- The helper `rule30`: `return left ^ (mid | right);` as a `uint8_t`. -/
def rule30 (left mid right : Nat) : Nat := (left ^^^ (mid ||| right)) % 256

/-- Body of the `for` loop of `prng30_step` at column `j`. -/
def prng30_step_body (n r next : Int) (rows : List Nat) (j : Nat) : List Nat :=
  let left := rd rows (r * n + Int.tmod ((j : Int) - 1 + n) n)
  let mid := rd rows (r * n + (j : Int))
  let right := rd rows (r * n + Int.tmod ((j : Int) + 1) n)
  wr rows (next * n + (j : Int)) (rule30 left mid right)

/-- The function `prng30_step`. -/
def prng30_step (st : prng30_state) : prng30_state :=
  let n := st.size
  let r := st.current_row
  let next := Int.tmod (r + 1) n
  { size := st.size
    rows := (List.range n.toNat).foldl (prng30_step_body n r next) st.rows
    current_row := next }

/-- The `for` loop of `prng30_generate`, with `k` iterations left to run. -/
def prng30_generate_loop (mid : Int) : Nat → prng30_state → Nat → prng30_state × Nat
  | 0, st, out => (st, out)
  | k + 1, st, out =>
    let st1 := prng30_step st
    let center_bit := rd st1.rows (st1.current_row * st1.size + mid)
    let left_bit :=
      rd st1.rows (st1.current_row * st1.size + Int.tmod (mid - 1 + st1.size) st1.size)
    let right_bit := rd st1.rows (st1.current_row * st1.size + Int.tmod (mid + 1) st1.size)
    let bit := (center_bit ^^^ (left_bit &&& right_bit)) % 256
    prng30_generate_loop mid k st1 (((out <<< 1) % 2 ^ 64) ||| (bit &&& 1))

/-- The function `prng30_generate`: the state it leaves and the value it returns. -/
def prng30_generate (st : prng30_state) (nbits : Int) : prng30_state × Nat :=
  let nbits := if nbits > 64 then 64 else nbits
  if nbits ≤ 0 then (st, 0)
  else prng30_generate_loop (Int.tdiv st.size 2) nbits.toNat st 0

/-- Seed after the degenerate-seed test of `prng30_init`. -/
def prng30_init_seed (seed : Nat) : Nat :=
  if seed = 0 ∨ seed = 2 ^ 64 - 1 then 0x123456789ABCDEF else seed

/-- First loop of `prng30_init`: the first row derived from the seed. -/
def prng30_init_derive (seed : Nat) (width : Int) (rows : List Nat) : List Nat :=
  (List.range width.toNat).foldl
    (fun (rows : List Nat) (i : Nat) =>
      if i < 64 then wr rows (i : Int) (((seed >>> i) &&& 1) % 256)
      else
        let hash := (seed * 6364136223846793005 + i) % 2 ^ 64
        wr rows (i : Int) (((hash >>> 32) &&& 1) % 256))
    rows

/-- Second loop of `prng30_init`: the number of set cells of the first row. -/
def prng30_init_count (width : Int) (rows : List Nat) : Int :=
  (List.range width.toNat).foldl
    (fun (set_bits : Int) (i : Nat) => if rd rows (i : Int) ≠ 0 then set_bits + 1 else set_bits) 0

/-- Third loop of `prng30_init`: `for (i = 0; i < width; i += 7) rows[i] ^= 1;`. -/
def prng30_init_flip (width : Int) (rows : List Nat) : List Nat :=
  (List.range ((width.toNat + 6) / 7)).foldl
    (fun (rows : List Nat) (k : Nat) => wr rows ((7 * k : Nat) : Int) ((rd rows ((7 * k : Nat) : Int) ^^^ 1) % 256))
    rows

/-- State of `prng30_init` just before the warm-up loop, on a buffer of `width * width`
cells (the allocation while `width * width` fits an `int`, see `calloc_cells`). -/
def prng30_init_seeded (seed : Nat) (width : Int) : prng30_state :=
  let rows := List.replicate (width * width).toNat 0
  let seed := prng30_init_seed seed
  let rows := prng30_init_derive seed width rows
  let set_bits := prng30_init_count width rows
  let rows := if set_bits < Int.tdiv width 5 then prng30_init_flip width rows else rows
  { size := width, rows := rows, current_row := 0 }

/-- The function `prng30_init`, on a buffer of `width * width` cells. -/
def prng30_init (seed : Nat) (width : Int) : prng30_state :=
  let warmup_rounds := if width > 128 then 50 else 30
  prng30_step^[warmup_rounds] (prng30_init_seeded seed width)

/-! ### Vocabulary of the properties -/

/-- The cell at row `i`, column `j` of the grid: `rows[i * size + j]`. -/
def cell (st : prng30_state) (i j : Int) : Nat := rd st.rows (i * st.size + j)

/-- A valid state: positive `size`, `current_row` inside `[0, size)`, a buffer of
`size * size` cells, each one a `uint8_t`. -/
def Valid (st : prng30_state) : Prop :=
  1 ≤ st.size ∧ 0 ≤ st.current_row ∧ st.current_row < st.size ∧
    st.rows.length = (st.size * st.size).toNat ∧ ∀ c ∈ st.rows, c < 256

instance (st : prng30_state) : Decidable (Valid st) := by
  unfold Valid
  infer_instance

/-- Every cell of the buffer is `0` or `1`. -/
def Binary (st : prng30_state) : Prop := ∀ c ∈ st.rows, c ≤ 1

instance (st : prng30_state) : Decidable (Binary st) := by
  unfold Binary
  infer_instance

/-- The value `prng30_step` stores at column `j` of the next row, read from row `r`
of `rows` (indices as natural numbers). -/
def stepVal (n r : Nat) (rows : List Nat) (j : Nat) : Nat :=
  rule30 (rows.getD (r * n + (j + n - 1) % n) 0) (rows.getD (r * n + j) 0)
    (rows.getD (r * n + (j + 1) % n) 0)

/-- A small valid state: a 3 x 3 grid with row 0 current. -/
def exampleState : prng30_state :=
  { size := 3, rows := [1, 0, 1, 0, 0, 0, 1, 1, 1], current_row := 0 }

/-- The bit `prng30_generate` extracts from the current row of `st`:
`center XOR (left AND right)` at columns `mid = size / 2`, `(mid - 1) mod size`,
`(mid + 1) mod size`. -/
def outBit (st : prng30_state) : Nat :=
  cell st st.current_row (st.size / 2) ^^^
    (cell st st.current_row ((st.size / 2 - 1) % st.size) &&&
      cell st st.current_row ((st.size / 2 + 1) % st.size))

/-- The values returned, call by call, by successive `prng30_generate` calls with the
bit widths `widths` on a state that starts as `st`. -/
def generateSeq (st : prng30_state) : List Int → List Nat
  | [] => []
  | w :: ws => (prng30_generate st w).2 :: generateSeq (prng30_generate st w).1 ws

/-- The current row of the grid, column by column. -/
def currentRow (st : prng30_state) : List Nat :=
  (List.range st.size.toNat).map (fun (j : Nat) => cell st st.current_row (j : Int))

/-- The current row is all-zero. -/
def rowAllZero (st : prng30_state) : Prop := ∀ c ∈ currentRow st, c = 0

instance (st : prng30_state) : Decidable (rowAllZero st) := by
  unfold rowAllZero
  infer_instance

/-- A row of cells packed into a number: column `j` is bit `j`. -/
def encode : List Nat → Nat
  | [] => 0
  | c :: cs => c % 2 + 2 * encode cs

/-- The current row of a state packed into a number. -/
def rowMask (st : prng30_state) : Nat := encode (currentRow st)

/-- One Rule 30 generation on a packed row of `n` columns, with wrap-around:
bit `j` of the result is `left XOR (mid OR right)`. -/
def rule30Mask (n x : Nat) : Nat :=
  (((x <<< 1) ||| (x >>> (n - 1))) % 2 ^ n) ^^^ (x ||| ((x >>> 1) ||| ((x % 2) <<< (n - 1))))

/-- The extracted bit `center XOR (left AND right)` read from a packed row. -/
def maskBit (n x : Nat) : Nat :=
  (x / 2 ^ (n / 2) % 2) ^^^
    ((x / 2 ^ ((n / 2 + n - 1) % n) % 2) &&& (x / 2 ^ ((n / 2 + 1) % n) % 2))

/-- The loop of `prng30_generate` on a packed row: the value accumulated after `k`
more iterations. -/
def generateMask (n : Nat) : Nat → Nat → Nat → Nat
  | 0, _, out => out
  | k + 1, x, out =>
    generateMask n k (rule30Mask n x) (((out <<< 1) % 2 ^ 64) ||| maskBit n (rule30Mask n x))

/-- The cell the first loop of `prng30_init` derives from `seed` at column `i`. -/
def deriveBit (seed i : Nat) : Nat :=
  if i < 64 then seed / 2 ^ i % 2 else (seed * 6364136223846793005 + i) % 2 ^ 64 / 2 ^ 32 % 2

/-- The first row derived from `seed`, `n` columns wide. -/
def derivedRow (seed n : Nat) : List Nat := (List.range n).map (deriveBit seed)

/-- A row with every 7th cell (columns 0, 7, 14, ...) flipped. -/
def flipRow (row : List Nat) : List Nat :=
  List.zipWith (fun (j c : Nat) => if j % 7 = 0 then (c ^^^ 1) % 256 else c)
    (List.range row.length) row

/-- The first row after the entropy floor of `prng30_init`, for the seed `seed`
already substituted. -/
def seededRow (seed n : Nat) : List Nat :=
  if ((derivedRow seed n).countP (fun c => c ≠ 0) : Int) < Int.tdiv (n : Int) 5 then
    flipRow (derivedRow seed n)
  else derivedRow seed n

/-- The packed current row of `prng30_init seed n`. -/
def initMask (seed n : Nat) : Nat :=
  (rule30Mask n)^[if n > 128 then 50 else 30] (encode (seededRow (prng30_init_seed seed) n))

/-- Check, on packed rows, that `prng30_init 0 n` has a non-zero current row and
that the first 32-bit value generated from it is non-zero. -/
def goodSize (n : Nat) : Bool :=
  initMask 0 n != 0 && generateMask n 32 (initMask 0 n) 0 != 0

/-- The states a caller can reach: the result of `prng30_init` for a positive width,
and whatever `prng30_step` and `prng30_generate` make of a reachable state. -/
inductive Reachable : prng30_state → Prop
  | init (seed : Nat) (width : Int) : 1 ≤ width → Reachable (prng30_init seed width)
  | step (st : prng30_state) : Reachable st → Reachable (prng30_step st)
  | generate (st : prng30_state) (nbits : Int) :
      Reachable st → Reachable (prng30_generate st nbits).1

/-- The values of successive `prng30_generate` calls computed on a packed row `x`
of `n` columns: each request of width `w` runs `w` clamped to `[0, 64]` generations. -/
def generateSeqMask (n : Nat) : Nat → List Int → List Nat
  | _, [] => []
  | x, w :: ws =>
    generateMask n (min (max w 0) 64).toNat x 0 ::
      generateSeqMask n ((rule30Mask n)^[(min (max w 0) 64).toNat] x) ws

/-- Number of positions at which two sequences of values differ. -/
def countDiff : List Nat → List Nat → Nat
  | a :: as, b :: bs => (if a ≠ b then 1 else 0) + countDiff as bs
  | _, _ => 0

/-- The buffer of `prng30_init` after its first loop: the zeroed grid with the first
row derived from the substituted seed. -/
def prng30_init_derived (seed : Nat) (width : Int) : List Nat :=
  prng30_init_derive (prng30_init_seed seed) width (List.replicate (width * width).toNat 0)

/-- Number of set cells among the first `width` cells of a buffer. -/
def setCells (width : Int) (rows : List Nat) : Nat :=
  (List.range width.toNat).countP (fun (i : Nat) => rd rows (i : Int) ≠ 0)

/-- The constant `MAX` of `rule_30.c`: the row stride of the grid `int present[][MAX]`. -/
def MAX : Nat := 128

/-- The function `create_next_iteration` of `rule_30.c`, on the grid stored row by row
with stride `MAX` (`present[i][j]` is cell `i * MAX + j`); the cells are the
non-negative `int`s 0 and 1 of the program, for which `^` is `Nat.xor`. -/
def create_next_iteration (present : List Nat) (bits2 row : Int) : List Nat :=
  (List.range bits2.toNat).foldl
    (fun (present : List Nat) (j : Nat) =>
      let left := rd present (row * (MAX : Int) + Int.tmod ((j : Int) - 1 + bits2) bits2)
      let mid := rd present (row * (MAX : Int) + (j : Int))
      let right := rd present (row * (MAX : Int) + Int.tmod ((j : Int) + 1) bits2)
      wr present ((row + 1) * (MAX : Int) + (j : Int)) (left ^^^ mid ^^^ right))
    present

/-- Row `i` of a grid of `rule_30.c`, `bits2` columns wide. -/
def gridRow (present : List Nat) (bits2 i : Int) : List Nat :=
  (List.range bits2.toNat).map (fun (j : Nat) => rd present (i * (MAX : Int) + (j : Int)))

/-- Rule 30 as the specification words it: the next row of a circular row, each cell
`left XOR (mid OR right)` of the neighbours `(j - 1) mod n`, `j`, `(j + 1) mod n`. -/
def specNextRow (row : List Nat) : List Nat :=
  (List.range row.length).map (fun (j : Nat) =>
    row.getD ((j + row.length - 1) % row.length) 0 ^^^
      (row.getD j 0 ||| row.getD ((j + 1) % row.length) 0))

/-- The grid of `run_ca` for `bits2 = 4` and seed 6 before the first iteration: all
cells zero except row 0, which holds the seed bits `0, 1, 1, 0`. -/
def exampleGrid : List Nat := (List.replicate (MAX * MAX) 0).set 1 1 |>.set 2 1

/-- A state of the engine whose current row is `0, 1, 1, 0`. -/
def exampleState4 : prng30_state :=
  { size := 4, rows := [0, 1, 1, 0, 0, 0, 0, 0, 0, 0, 0, 0, 0, 0, 0, 0], current_row := 0 }

/-- The bit `prng30_generate` extracts from a row given as a list: the low bit of
`center XOR (left AND right)` at the columns `n / 2`, `(n / 2 - 1) mod n` and
`(n / 2 + 1) mod n`. -/
def rowBit (row : List Nat) : Nat :=
  ((row.getD (row.length / 2) 0 ^^^
      (row.getD ((row.length / 2 + row.length - 1) % row.length) 0 &&&
        row.getD ((row.length / 2 + 1) % row.length) 0)) % 256) &&& 1

/-- The loop of `prng30_generate` on a row given as a list: the row and the
accumulator after `k` more iterations. -/
def rowGenerate : Nat → List Nat → Nat → List Nat × Nat
  | 0, row, out => (row, out)
  | k + 1, row, out =>
    rowGenerate k (specNextRow row) (((out <<< 1) % 2 ^ 64) ||| rowBit (specNextRow row))

/-- A second small valid state: a 3 x 3 grid with row 2 current, holding the same
current row `1, 0, 1` as `exampleState` among other cells. -/
def exampleState2 : prng30_state :=
  { size := 3, rows := [7, 7, 7, 0, 1, 0, 1, 0, 1], current_row := 2 }

/-- A third small valid state, whose current row `0, 1, 1` is the current row of
`exampleState` rotated by one column. -/
def exampleState3 : prng30_state :=
  { size := 3, rows := [0, 0, 0, 0, 1, 1, 5, 5, 5], current_row := 1 }

/-- A small valid state whose current row (row 1) is all-zero. -/
def exampleStateZero : prng30_state :=
  { size := 3, rows := [9, 9, 9, 0, 0, 0, 1, 1, 1], current_row := 1 }

/-! ### The allocation of `prng30_init` and accesses checked against the buffer -/

/-- The number of cells `prng30_init` asks `calloc` for, `calloc(width * width,
sizeof(uint8_t))`: the product is computed in `int` (32 bits, two's complement, so
it wraps) and then converted to `size_t`. -/
def calloc_cells (width : Int) : Nat :=
  (((width * width + 2 ^ 31) % 2 ^ 32 - 2 ^ 31) % 2 ^ 64).toNat

/-- The state of `prng30_init` just before the warm-up loop when `calloc` returned a
zeroed buffer of `cells` cells. -/
def prng30_init_seeded_with (cells : Nat) (seed : Nat) (width : Int) : prng30_state :=
  let rows := List.replicate cells 0
  let seed := prng30_init_seed seed
  let rows := prng30_init_derive seed width rows
  let set_bits := prng30_init_count width rows
  let rows := if set_bits < Int.tdiv width 5 then prng30_init_flip width rows else rows
  { size := width, rows := rows, current_row := 0 }

/-- The function `prng30_init` on a buffer of `cells` cells; the code runs it with
`cells = calloc_cells width`. -/
def prng30_init_with (cells : Nat) (seed : Nat) (width : Int) : prng30_state :=
  let warmup_rounds := if width > 128 then 50 else 30
  prng30_step^[warmup_rounds] (prng30_init_seeded_with cells seed width)

/-- Array read `rows[i]` that fails outside the buffer. -/
def rd_checked (rows : List Nat) (i : Int) : Option Nat :=
  if 0 ≤ i ∧ i < (rows.length : Int) then some (rd rows i) else none

/-- Array write `rows[i] = v` that fails outside the buffer. -/
def wr_checked (rows : List Nat) (i : Int) (v : Nat) : Option (List Nat) :=
  if 0 ≤ i ∧ i < (rows.length : Int) then some (wr rows i v) else none

/-- Body of the `for` loop of `prng30_step` at column `j`, failing on any access
outside the buffer. -/
def prng30_step_body_checked (n r next : Int) (rows : List Nat) (j : Nat) :
    Option (List Nat) :=
  (rd_checked rows (r * n + Int.tmod ((j : Int) - 1 + n) n)).bind (fun left =>
    (rd_checked rows (r * n + (j : Int))).bind (fun mid =>
      (rd_checked rows (r * n + Int.tmod ((j : Int) + 1) n)).bind (fun right =>
        wr_checked rows (next * n + (j : Int)) (rule30 left mid right))))

/-- The `for` loop of `prng30_step` over the columns `js`, failing on any access
outside the buffer. -/
def prng30_step_loop_checked (n r next : Int) : List Nat → List Nat → Option (List Nat)
  | [], rows => some rows
  | j :: js, rows =>
    (prng30_step_body_checked n r next rows j).bind (prng30_step_loop_checked n r next js)

/-- The function `prng30_step`, failing on any access outside the buffer. -/
def prng30_step_checked (st : prng30_state) : Option prng30_state :=
  let n := st.size
  let r := st.current_row
  let next := Int.tmod (r + 1) n
  (prng30_step_loop_checked n r next (List.range n.toNat) st.rows).map
    (fun rows => { size := st.size, rows := rows, current_row := next })

/-- The warm-up loop of `prng30_init`, `k` calls of `prng30_step`, failing on any
access outside the buffer. -/
def prng30_warmup_checked : Nat → prng30_state → Option prng30_state
  | 0, st => some st
  | k + 1, st => (prng30_step_checked st).bind (prng30_warmup_checked k)

/-! ## Properties -/

/-! ### Array reads and writes -/

theorem getD_set_eq (rows : List Nat) (i k v : Nat) :
    (rows.set i v).getD k 0 = if i = k ∧ i < rows.length then v else rows.getD k 0 := by
  simp only [List.getD_eq_getElem?_getD, List.getElem?_set]
  by_cases h : i = k
  · subst h
    by_cases h2 : i < rows.length
    · simp [h2]
    · simp [h2]
      have : rows[i]? = none := List.getElem?_eq_none (by omega)
      simp [this]
  · simp [h]

theorem step_body_nat (n r nx j : Nat) (hn : 1 ≤ n) (rows : List Nat) :
    prng30_step_body n r nx rows j =
      rows.set (nx * n + j)
        (rule30 (rows.getD (r * n + (j + n - 1) % n) 0) (rows.getD (r * n + j) 0)
          (rows.getD (r * n + (j + 1) % n) 0)) := by
  have e1 : ((j : Int) - 1 + (n : Int)) = ((j + n - 1 : Nat) : Int) := by omega
  have e2 : ((j : Int) + 1) = ((j + 1 : Nat) : Int) := by omega
  unfold prng30_step_body rd wr
  rw [e1, e2, ← Int.ofNat_tmod, ← Int.ofNat_tmod]
  have t : ∀ a b c : Nat, ((a : Int) * (b : Int) + (c : Int)).toNat = a * b + c := by
    intro a b c
    have : ((a : Int) * (b : Int) + (c : Int)) = ((a * b + c : Nat) : Int) := by push_cast; ring
    rw [this, Int.toNat_ofNat]
  simp only [t]

theorem row_index_disjoint (n r nx c k : Nat) (hc : c < n) (hk : k ≤ n)
    (hd : nx ≠ r ∨ k = 0) : ¬ (nx * n ≤ r * n + c ∧ r * n + c < nx * n + k) := by
  rcases hd with hd | hd
  · intro h
    rcases Nat.lt_or_gt_of_ne hd with h1 | h1
    · have := Nat.mul_le_mul_right n (Nat.succ_le_of_lt h1)
      rw [Nat.succ_mul] at this
      omega
    · have := Nat.mul_le_mul_right n (Nat.succ_le_of_lt h1)
      rw [Nat.succ_mul] at this
      omega
  · omega

theorem row_index_lt (n i c : Nat) (hi : i < n) (hc : c < n) : i * n + c < n * n := by
  have := Nat.mul_le_mul_right n (Nat.succ_le_of_lt hi)
  rw [Nat.succ_mul] at this
  omega

theorem step_fold (n r nx : Nat) (hn : 1 ≤ n) (rows : List Nat) (hlen : rows.length = n * n)
    (hnx : nx < n) (hd : nx ≠ r ∨ n = 1) (k : Nat) (hk : k ≤ n) :
    ((List.range k).foldl (prng30_step_body n r nx) rows).length = rows.length ∧
    ∀ idx, ((List.range k).foldl (prng30_step_body n r nx) rows).getD idx 0 =
      if nx * n ≤ idx ∧ idx < nx * n + k then stepVal n r rows (idx - nx * n)
      else rows.getD idx 0 := by
  induction k with
  | zero =>
    refine ⟨rfl, fun idx => ?_⟩
    rw [if_neg (by omega)]
    rfl
  | succ k ih =>
    obtain ⟨ihl, ihv⟩ := ih (by omega)
    rw [List.range_succ, List.foldl_append]
    simp only [List.foldl_cons, List.foldl_nil]
    rw [step_body_nat n r nx k hn]
    refine ⟨by rw [List.length_set, ihl], ?_⟩
    intro idx
    have hd2 : nx ≠ r ∨ k = 0 := by
      rcases hd with hd | hd
      · exact Or.inl hd
      · exact Or.inr (by omega)
    have hm1 : (k + n - 1) % n < n := Nat.mod_lt _ (by omega)
    have hm2 : (k + 1) % n < n := Nat.mod_lt _ (by omega)
    have r1 := ihv (r * n + (k + n - 1) % n)
    have r2 := ihv (r * n + k)
    have r3 := ihv (r * n + (k + 1) % n)
    rw [if_neg (row_index_disjoint n r nx _ k hm1 (by omega) hd2)] at r1
    rw [if_neg (row_index_disjoint n r nx _ k (by omega) (by omega) hd2)] at r2
    rw [if_neg (row_index_disjoint n r nx _ k hm2 (by omega) hd2)] at r3
    rw [getD_set_eq, r1, r2, r3, ihl, hlen, ihv idx]
    have hlt := row_index_lt n nx k hnx (by omega)
    by_cases h : nx * n + k = idx
    · subst h
      have e : nx * n + k - nx * n = k := by omega
      rw [if_pos ⟨rfl, hlt⟩, if_pos ⟨by omega, by omega⟩, e]
      rfl
    · rw [if_neg (fun hh => h hh.1)]
      by_cases h2 : nx * n ≤ idx ∧ idx < nx * n + k
      · rw [if_pos h2, if_pos ⟨h2.1, by omega⟩]
      · rw [if_neg h2, if_neg (by omega)]

/-! ### The transition `prng30_step` -/

theorem valid_nat {st : prng30_state} (h : Valid st) :
    ∃ n r : Nat, st.size = (n : Int) ∧ st.current_row = (r : Int) ∧ 1 ≤ n ∧ r < n ∧
      st.rows.length = n * n := by
  obtain ⟨h1, h2, h3, h4, _⟩ := h
  refine ⟨st.size.toNat, st.current_row.toNat, by omega, by omega, by omega, by omega, ?_⟩
  rw [h4]
  have : st.size * st.size = ((st.size.toNat * st.size.toNat : Nat) : Int) := by
    push_cast
    rw [Int.toNat_of_nonneg (by omega)]
  rw [this, Int.toNat_ofNat]

theorem succ_mod_ne (n r : Nat) (hr : r < n) : (r + 1) % n ≠ r ∨ n = 1 := by
  by_cases h : r + 1 < n
  · rw [Nat.mod_eq_of_lt h]; omega
  · have : r + 1 = n := by omega
    rw [this, Nat.mod_self]; omega

theorem step_nat (st : prng30_state) (n r : Nat) (hs : st.size = (n : Int))
    (hr : st.current_row = (r : Int)) :
    prng30_step st =
      { size := (n : Int)
        rows := (List.range n).foldl (prng30_step_body n r ((r + 1) % n : Nat)) st.rows
        current_row := (((r + 1) % n : Nat) : Int) } := by
  unfold prng30_step
  simp only [hs, hr, Int.toNat_ofNat]
  have : ((r : Int) + 1) = ((r + 1 : Nat) : Int) := by omega
  rw [this, ← Int.ofNat_tmod]

theorem step_getD (st : prng30_state) (n r : Nat) (hs : st.size = (n : Int))
    (hr : st.current_row = (r : Int)) (hn : 1 ≤ n) (hrn : r < n)
    (hlen : st.rows.length = n * n) (idx : Nat) :
    (prng30_step st).rows.getD idx 0 =
      if (r + 1) % n * n ≤ idx ∧ idx < (r + 1) % n * n + n
      then stepVal n r st.rows (idx - (r + 1) % n * n) else st.rows.getD idx 0 := by
  rw [step_nat st n r hs hr]
  exact (step_fold n r ((r + 1) % n) hn st.rows hlen (Nat.mod_lt _ (by omega))
    (succ_mod_ne n r hrn) n (Nat.le_refl n)).2 idx

theorem step_length (st : prng30_state) (n r : Nat) (hs : st.size = (n : Int))
    (hr : st.current_row = (r : Int)) (hn : 1 ≤ n) (hrn : r < n)
    (hlen : st.rows.length = n * n) :
    (prng30_step st).rows.length = n * n := by
  rw [step_nat st n r hs hr]
  exact ((step_fold n r ((r + 1) % n) hn st.rows hlen (Nat.mod_lt _ (by omega))
    (succ_mod_ne n r hrn) n (Nat.le_refl n)).1).trans hlen

theorem step_cell_nat (st : prng30_state) (n r : Nat) (hs : st.size = (n : Int))
    (hr : st.current_row = (r : Int)) (hn : 1 ≤ n) (hrn : r < n)
    (hlen : st.rows.length = n * n) (i j : Nat) (hj : j < n) :
    (prng30_step st).rows.getD (i * n + j) 0 =
      if i = (r + 1) % n then stepVal n r st.rows j else st.rows.getD (i * n + j) 0 := by
  rw [step_getD st n r hs hr hn hrn hlen]
  by_cases h : i = (r + 1) % n
  · subst h
    rw [if_pos ⟨by omega, by omega⟩, if_pos rfl]
    congr 1
    omega
  · rw [if_neg (row_index_disjoint n i _ j n hj (Nat.le_refl n) (Or.inl (Ne.symm h))), if_neg h]

theorem cell_nat (st : prng30_state) (n : Nat) (hs : st.size = (n : Int)) (i j : Nat) :
    cell st (i : Int) (j : Int) = st.rows.getD (i * n + j) 0 := by
  unfold cell rd
  rw [hs]
  have : ((i : Int) * (n : Int) + (j : Int)) = ((i * n + j : Nat) : Int) := by push_cast; ring
  rw [this, Int.toNat_ofNat]

theorem rule30_lt (a b c : Nat) : rule30 a b c < 256 := Nat.mod_lt _ (by decide)

theorem rule30_u8 (a b c : Nat) (ha : a < 256) (hb : b < 256) (hc : c < 256) :
    rule30 a b c = a ^^^ (b ||| c) := by
  unfold rule30
  apply Nat.mod_eq_of_lt
  have h1 : b ||| c < 2 ^ 8 := Nat.or_lt_two_pow (by simpa using hb) (by simpa using hc)
  have h2 : a ^^^ (b ||| c) < 2 ^ 8 := Nat.xor_lt_two_pow (by simpa using ha) h1
  simpa using h2

theorem getD_lt_of_forall (rows : List Nat) (b : Nat) (h : ∀ c ∈ rows, c < b) (hb : 0 < b)
    (i : Nat) : rows.getD i 0 < b := by
  by_cases hi : i < rows.length
  · rw [List.getD_eq_getElem _ _ hi]
    exact h _ (List.getElem_mem _)
  · rw [List.getD_eq_default _ _ (by omega)]
    exact hb

theorem forall_of_getD_lt (rows : List Nat) (b : Nat) (h : ∀ i, rows.getD i 0 < b) :
    ∀ c ∈ rows, c < b := by
  intro c hc
  obtain ⟨i, hi, rfl⟩ := List.getElem_of_mem hc
  have := h i
  rwa [List.getD_eq_getElem _ _ hi] at this

theorem valid_step {st : prng30_state} (h : Valid st) : Valid (prng30_step st) := by
  obtain ⟨n, r, hs, hr, hn, hrn, hlen⟩ := valid_nat h
  have hl := step_length st n r hs hr hn hrn hlen
  have hg := step_getD st n r hs hr hn hrn hlen
  have hcells := h.2.2.2.2
  rw [step_nat st n r hs hr] at hl hg ⊢
  have hmod : (r + 1) % n < n := Nat.mod_lt _ (by omega)
  refine ⟨by simp only; omega, by simp only; omega, by simp only; omega, ?_, ?_⟩
  · simp only
    rw [hl]
    have : ((n : Int) * (n : Int)) = ((n * n : Nat) : Int) := by push_cast; ring
    rw [this, Int.toNat_ofNat]
  · apply forall_of_getD_lt
    intro i
    rw [hg i]
    split
    · exact rule30_lt _ _ _
    · exact getD_lt_of_forall _ _ hcells (by decide) i

theorem valid_iterate {st : prng30_state} (h : Valid st) (k : Nat) :
    Valid (prng30_step^[k] st) := by
  induction k with
  | zero => exact h
  | succ k ih =>
    rw [Function.iterate_succ_apply']
    exact valid_step ih

theorem step_size (st : prng30_state) : (prng30_step st).size = st.size := rfl

theorem iterate_size (st : prng30_state) (k : Nat) : (prng30_step^[k] st).size = st.size := by
  induction k with
  | zero => rfl
  | succ k ih => rw [Function.iterate_succ_apply', step_size, ih]

/-- C1: on a valid state `prng30_step` makes `current_row` the row
`next = (current_row + 1) mod size`, and every column `j` of that row holds
`left XOR (mid OR right)` of the cells of the old current row at columns
`(j - 1) mod size`, `j` and `(j + 1) mod size`. -/
theorem prng30_step_rule (st : prng30_state) (h : Valid st) :
    (prng30_step st).current_row = (st.current_row + 1) % st.size ∧
    ∀ j : Int, 0 ≤ j → j < st.size →
      cell (prng30_step st) ((st.current_row + 1) % st.size) j =
        cell st st.current_row ((j - 1) % st.size) ^^^
          (cell st st.current_row j ||| cell st st.current_row ((j + 1) % st.size)) := by
  obtain ⟨n, r, hs, hr, hn, hrn, hlen⟩ := valid_nat h
  have hnext : (st.current_row + 1) % st.size = (((r + 1) % n : Nat) : Int) := by
    rw [hs, hr]; norm_cast
  refine ⟨?_, ?_⟩
  · rw [hnext, step_nat st n r hs hr]
  · intro j hj0 hjn
    obtain ⟨c, rfl⟩ := Int.eq_ofNat_of_zero_le hj0
    have hc : c < n := by omega
    have hl : (((c : Int) - 1) % st.size) = (((c + n - 1) % n : Nat) : Int) := by
      rw [hs, ← Int.add_emod_self]
      have : ((c : Int) - 1 + (n : Int)) = ((c + n - 1 : Nat) : Int) := by omega
      rw [this]; norm_cast
    have hrt : (((c : Int) + 1) % st.size) = (((c + 1) % n : Nat) : Int) := by
      rw [hs]; norm_cast
    rw [hnext, hl, hrt, hr, cell_nat (prng30_step st) n (by rw [step_size, hs]),
      cell_nat st n hs, cell_nat st n hs, cell_nat st n hs,
      step_cell_nat st n r hs hr hn hrn hlen _ _ hc, if_pos rfl]
    unfold stepVal
    have hcells := h.2.2.2.2
    exact rule30_u8 _ _ _ (getD_lt_of_forall _ _ hcells (by decide) _)
      (getD_lt_of_forall _ _ hcells (by decide) _) (getD_lt_of_forall _ _ hcells (by decide) _)

theorem prng30_step_rule_witness :
    Valid exampleState ∧
      ((prng30_step exampleState).current_row =
          (exampleState.current_row + 1) % exampleState.size ∧
        ∀ j : Int, 0 ≤ j → j < exampleState.size →
          cell (prng30_step exampleState)
              ((exampleState.current_row + 1) % exampleState.size) j =
            cell exampleState exampleState.current_row ((j - 1) % exampleState.size) ^^^
              (cell exampleState exampleState.current_row j |||
                cell exampleState exampleState.current_row ((j + 1) % exampleState.size))) :=
  ⟨by decide, prng30_step_rule exampleState (by decide)⟩

theorem step_current_row_tmod (st : prng30_state) :
    (prng30_step st).current_row = Int.tmod (st.current_row + 1) st.size := rfl

/-- C7: on a valid state, after `k` calls of `prng30_step` the field `current_row`
equals `(initial current_row + k) mod size`. -/
theorem prng30_step_current_row (st : prng30_state) (h : Valid st) (k : Nat) :
    (prng30_step^[k] st).current_row = (st.current_row + (k : Int)) % st.size := by
  induction k with
  | zero =>
    obtain ⟨h1, h2, h3, _⟩ := h
    simp only [Function.iterate_zero, id_eq, Nat.cast_zero, add_zero]
    exact (Int.emod_eq_of_lt h2 h3).symm
  | succ k ih =>
    have hv := valid_iterate h k
    obtain ⟨h1, h2, h3, _⟩ := hv
    rw [Function.iterate_succ_apply', step_current_row_tmod,
      Int.tmod_eq_emod (by omega) (by omega), iterate_size, ih, Int.emod_add_emod]
    congr 1
    push_cast
    ring

theorem prng30_step_current_row_witness :
    Valid exampleState ∧
      (prng30_step^[7] exampleState).current_row =
        (exampleState.current_row + ((7 : Nat) : Int)) % exampleState.size :=
  ⟨by decide, prng30_step_current_row exampleState (by decide) 7⟩

/-! ### The extractor `prng30_generate` -/

theorem generate_loop_state (mid : Int) (k : Nat) (st : prng30_state) (out : Nat) :
    (prng30_generate_loop mid k st out).1 = prng30_step^[k] st := by
  induction k generalizing st out with
  | zero => rfl
  | succ k ih =>
    rw [Function.iterate_succ_apply]
    unfold prng30_generate_loop
    exact ih _ _

/-- C3: the state left by `prng30_generate st nbits` is the input state advanced by
exactly `c` applications of `prng30_step`, where `c` is `nbits` clamped to `[0, 64]`. -/
theorem prng30_generate_advances (st : prng30_state) (nbits : Int) :
    (prng30_generate st nbits).1 = prng30_step^[(min (max nbits 0) 64).toNat] st := by
  unfold prng30_generate
  by_cases h1 : nbits > 64
  · have : (min (max nbits 0) 64).toNat = 64 := by omega
    simp only [h1, if_true, this]
    rw [if_neg (by decide)]
    exact generate_loop_state _ _ _ _
  · simp only [h1, if_false]
    by_cases h2 : nbits ≤ 0
    · have : (min (max nbits 0) 64).toNat = 0 := by omega
      rw [if_pos h2, this]
      rfl
    · have : (min (max nbits 0) 64).toNat = nbits.toNat := by omega
      rw [if_neg h2, this]
      exact generate_loop_state _ _ _ _

/-- C4: for `nbits <= 0`, `prng30_generate` returns `0` and leaves the whole state
unchanged, so a following call returns what it would have returned without it. -/
theorem prng30_generate_nonpositive (st : prng30_state) (nbits : Int) (h : nbits ≤ 0) :
    prng30_generate st nbits = (st, 0) ∧
      ∀ m : Int, prng30_generate (prng30_generate st nbits).1 m = prng30_generate st m := by
  have e : prng30_generate st nbits = (st, 0) := by
    unfold prng30_generate
    have h1 : ¬ nbits > 64 := by omega
    simp only [h1, if_false]
    rw [if_pos h]
  exact ⟨e, fun m => by rw [e]⟩

theorem prng30_generate_nonpositive_witness :
    (-3 : Int) ≤ 0 ∧
      (prng30_generate exampleState (-3) = (exampleState, 0) ∧
        ∀ m : Int, prng30_generate (prng30_generate exampleState (-3)).1 m =
          prng30_generate exampleState m) :=
  ⟨by decide, prng30_generate_nonpositive exampleState (-3) (by decide)⟩

theorem generate_loop_lt (mid : Int) (k : Nat) (st : prng30_state) (out a : Nat)
    (h : out < 2 ^ a) : (prng30_generate_loop mid k st out).2 < 2 ^ (a + k) := by
  induction k generalizing st out a with
  | zero => exact h
  | succ k ih =>
    unfold prng30_generate_loop
    have e : a + (k + 1) = (a + 1) + k := by omega
    rw [e]
    apply ih
    apply Nat.or_lt_two_pow
    · apply lt_of_le_of_lt (Nat.mod_le _ _)
      rw [Nat.shiftLeft_eq, Nat.pow_succ]
      omega
    · have h1 : ∀ b : Nat, b &&& 1 < 2 := fun b => by
        rw [Nat.and_one_is_mod]; omega
      calc _ < 2 := h1 _
        _ ≤ 2 ^ (a + 1) := by
          have := Nat.one_le_two_pow (n := a)
          rw [Nat.pow_succ]; omega

/-- C5: for `nbits` in `[0, 64]`, `prng30_generate` returns a value strictly below
`2 ^ nbits`; in particular an 8-, 16-, 32-bit request is at most `0xFF`, `0xFFFF`,
`0xFFFFFFFF`. -/
theorem prng30_generate_range (st : prng30_state) (nbits : Int) (h0 : 0 ≤ nbits)
    (h64 : nbits ≤ 64) :
    (prng30_generate st nbits).2 < 2 ^ nbits.toNat ∧
      (prng30_generate st 8).2 ≤ 0xFF ∧ (prng30_generate st 16).2 ≤ 0xFFFF ∧
      (prng30_generate st 32).2 ≤ 0xFFFFFFFF := by
  have key : ∀ nb : Int, 0 ≤ nb → nb ≤ 64 → (prng30_generate st nb).2 < 2 ^ nb.toNat := by
    intro nb hnb0 hnb64
    unfold prng30_generate
    have h1 : ¬ nb > 64 := by omega
    simp only [h1, if_false]
    by_cases h2 : nb ≤ 0
    · rw [if_pos h2]
      exact Nat.two_pow_pos _
    · rw [if_neg h2]
      have := generate_loop_lt (Int.tdiv st.size 2) nb.toNat st 0 0 (by decide)
      rwa [Nat.zero_add] at this
  refine ⟨key nbits h0 h64, ?_, ?_, ?_⟩
  · have := key 8 (by decide) (by decide)
    have e : (8 : Int).toNat = 8 := rfl
    rw [e] at this
    omega
  · have := key 16 (by decide) (by decide)
    have e : (16 : Int).toNat = 16 := rfl
    rw [e] at this
    omega
  · have := key 32 (by decide) (by decide)
    have e : (32 : Int).toNat = 32 := rfl
    rw [e] at this
    omega

theorem prng30_generate_range_witness :
    (0 : Int) ≤ 5 ∧ (5 : Int) ≤ 64 ∧
      ((prng30_generate exampleState 5).2 < 2 ^ (5 : Int).toNat ∧
        (prng30_generate exampleState 8).2 ≤ 0xFF ∧
        (prng30_generate exampleState 16).2 ≤ 0xFFFF ∧
        (prng30_generate exampleState 32).2 ≤ 0xFFFFFFFF) :=
  ⟨by decide, by decide, prng30_generate_range exampleState 5 (by decide) (by decide)⟩

theorem rule30_le_one (a b c : Nat) (ha : a ≤ 1) (hb : b ≤ 1) (hc : c ≤ 1) :
    rule30 a b c ≤ 1 := by
  interval_cases a <;> interval_cases b <;> interval_cases c <;> decide

theorem binary_getD {st : prng30_state} (h : Binary st) (i : Nat) : st.rows.getD i 0 ≤ 1 := by
  have := getD_lt_of_forall st.rows 2 (fun c hc => Nat.lt_succ_of_le (h c hc)) (by decide) i
  omega

theorem binary_step {st : prng30_state} (hb : Binary st) (hv : Valid st) :
    Binary (prng30_step st) := by
  obtain ⟨n, r, hs, hr, hn, hrn, hlen⟩ := valid_nat hv
  have hg := step_getD st n r hs hr hn hrn hlen
  intro c hc
  have : c < 2 := by
    revert c
    apply forall_of_getD_lt
    intro i
    rw [hg i]
    split
    · exact Nat.lt_succ_of_le (rule30_le_one _ _ _ (binary_getD hb _) (binary_getD hb _) (binary_getD hb _))
    · exact Nat.lt_succ_of_le (binary_getD hb _)
  omega

theorem binary_iterate {st : prng30_state} (hb : Binary st) (hv : Valid st) (k : Nat) :
    Binary (prng30_step^[k] st) := by
  induction k with
  | zero => exact hb
  | succ k ih =>
    rw [Function.iterate_succ_apply']
    exact binary_step ih (valid_iterate hv k)

theorem binary_cell {st : prng30_state} (h : Binary st) (i j : Int) : cell st i j ≤ 1 :=
  binary_getD h _

theorem mix_binary (c l r : Nat) (hc : c ≤ 1) (hl : l ≤ 1) (hr : r ≤ 1) :
    ((c ^^^ (l &&& r)) % 256) &&& 1 = c ^^^ (l &&& r) := by
  interval_cases c <;> interval_cases l <;> interval_cases r <;> decide

theorem outBit_le_one {st : prng30_state} (h : Binary st) : outBit st ≤ 1 := by
  unfold outBit
  have h1 := binary_cell h st.current_row (st.size / 2)
  have h2 := binary_cell h st.current_row ((st.size / 2 - 1) % st.size)
  have h3 := binary_cell h st.current_row ((st.size / 2 + 1) % st.size)
  generalize cell st st.current_row (st.size / 2) = c at h1
  generalize cell st st.current_row ((st.size / 2 - 1) % st.size) = l at h2
  generalize cell st st.current_row ((st.size / 2 + 1) % st.size) = r at h3
  interval_cases c <;> interval_cases l <;> interval_cases r <;> decide

/-- The bit computed in the loop body of `prng30_generate` is `outBit`. -/
theorem code_bit_eq {st : prng30_state} (hv : Valid st) (hb : Binary st) :
    ((rd st.rows (st.current_row * st.size + Int.tdiv st.size 2) ^^^
        (rd st.rows
            (st.current_row * st.size +
              Int.tmod (Int.tdiv st.size 2 - 1 + st.size) st.size) &&&
          rd st.rows
            (st.current_row * st.size + Int.tmod (Int.tdiv st.size 2 + 1) st.size))) % 256) &&&
      1 = outBit st := by
  obtain ⟨h1, _, _, _, _⟩ := hv
  have hd : Int.tdiv st.size 2 = st.size / 2 := Int.tdiv_eq_ediv (by omega) (by decide)
  have hm : 0 ≤ st.size / 2 := Int.ediv_nonneg (by omega) (by decide)
  have e1 : Int.tmod (st.size / 2 - 1 + st.size) st.size = (st.size / 2 - 1) % st.size := by
    rw [Int.tmod_eq_emod (by omega) (by omega), Int.add_emod_self]
  have e2 : Int.tmod (st.size / 2 + 1) st.size = (st.size / 2 + 1) % st.size :=
    Int.tmod_eq_emod (by omega) (by omega)
  rw [hd, e1, e2]
  exact mix_binary _ _ _ (binary_getD hb _) (binary_getD hb _) (binary_getD hb _)

theorem generate_loop_sum (k : Nat) (st : prng30_state) (out a : Nat) (hv : Valid st)
    (hb : Binary st) (ha : out < 2 ^ a) (hk : a + k ≤ 64) :
    (prng30_generate_loop (Int.tdiv st.size 2) k st out).2 =
      out * 2 ^ k + ∑ i in Finset.range k, outBit (prng30_step^[i + 1] st) * 2 ^ (k - 1 - i) := by
  induction k generalizing st out a with
  | zero => simp [prng30_generate_loop]
  | succ k ih =>
    have hv1 := valid_step hv
    have hb1 := binary_step hb hv
    have hbit := code_bit_eq hv1 hb1
    have hle := outBit_le_one hb1
    unfold prng30_generate_loop
    simp only [step_size] at hbit ⊢
    rw [hbit]
    have hout : (out <<< 1) % 2 ^ 64 ||| outBit (prng30_step st) =
        2 * out + outBit (prng30_step st) := by
      have hlt : out <<< 1 < 2 ^ 64 := by
        rw [Nat.shiftLeft_eq]
        calc out * 2 ^ 1 < 2 ^ a * 2 ^ 1 := Nat.mul_lt_mul_of_pos_right ha (by decide)
          _ = 2 ^ (a + 1) := (Nat.pow_succ _ _).symm
          _ ≤ 2 ^ 64 := Nat.pow_le_pow_right (by decide) (by omega)
      rw [Nat.mod_eq_of_lt hlt, Nat.shiftLeft_eq]
      have := Nat.mul_add_lt_is_or (i := 1) (b := outBit (prng30_step st)) (by omega) out
      rw [Nat.mul_comm out (2 ^ 1), ← this]
    rw [hout]
    have hlt2 : 2 * out + outBit (prng30_step st) < 2 ^ (a + 1) := by
      rw [Nat.pow_succ]; omega
    have := ih (prng30_step st) _ (a + 1) hv1 hb1 hlt2 (by omega)
    rw [step_size] at this
    rw [this, Finset.sum_range_succ']
    have hs : ∀ i ∈ Finset.range k,
        outBit (prng30_step^[i + 1] (prng30_step st)) * 2 ^ (k - 1 - i) =
          outBit (prng30_step^[i + 1 + 1] st) * 2 ^ (k + 1 - 1 - (i + 1)) := by
      intro i _
      rw [Function.iterate_succ_apply (n := i + 1)]
      congr 2
      omega
    rw [Finset.sum_congr rfl hs]
    simp only [Nat.zero_add, Function.iterate_one, Nat.add_sub_cancel, Nat.sub_zero]
    rw [Nat.pow_succ]
    ring

/-- C2: on a valid state with binary cells, with `m = min nbits 64` and `m >= 1`,
`prng30_generate` returns the sum over `k = 1..m` of `bit_k * 2 ^ (m - k)`, where
`bit_k = center XOR (left AND right)` is read from the current row after `k`
applications of `prng30_step`, at columns `size / 2`, `(size / 2 - 1) mod size` and
`(size / 2 + 1) mod size`. -/
theorem prng30_generate_value (st : prng30_state) (nbits : Int) (hv : Valid st)
    (hb : Binary st) (hm : 1 ≤ min nbits 64) :
    (prng30_generate st nbits).2 =
      ∑ k in Finset.Icc 1 (min nbits 64).toNat,
        outBit (prng30_step^[k] st) * 2 ^ ((min nbits 64).toNat - k) := by
  have hloop : (prng30_generate st nbits).2 =
      (prng30_generate_loop (Int.tdiv st.size 2) (min nbits 64).toNat st 0).2 := by
    unfold prng30_generate
    by_cases h1 : nbits > 64
    · have : (min nbits 64) = 64 := by omega
      simp only [h1, if_true, this]
      rw [if_neg (by decide)]
    · have : (min nbits 64) = nbits := by omega
      simp only [h1, if_false, this]
      rw [if_neg (by omega)]
  have hle : (min nbits 64).toNat ≤ 64 := by omega
  rw [hloop, generate_loop_sum _ st 0 0 hv hb (by decide) (by omega), Nat.zero_mul,
    Nat.zero_add, ← Nat.Ico_succ_right, Finset.range_eq_Ico,
    ← Finset.sum_Ico_add' _ 0 _ 1]
  apply Finset.sum_congr rfl
  intro i _
  congr 2
  omega

theorem prng30_generate_value_witness :
    Valid exampleState ∧ Binary exampleState ∧ (1 : Int) ≤ min 5 64 ∧
      (prng30_generate exampleState 5).2 =
        ∑ k in Finset.Icc 1 (min (5 : Int) 64).toNat,
          outBit (prng30_step^[k] exampleState) * 2 ^ ((min (5 : Int) 64).toNat - k) :=
  ⟨by decide, by decide, by decide,
    prng30_generate_value exampleState 5 (by decide) (by decide) (by decide)⟩

/-! ### Seeding: `prng30_init` -/

theorem fold_set_getD (f : Nat → Nat) (rows : List Nat) (k : Nat) (hk : k ≤ rows.length) :
    ((List.range k).foldl (fun (rows : List Nat) (i : Nat) => rows.set i (f i)) rows).length =
        rows.length ∧
      ∀ idx, ((List.range k).foldl
          (fun (rows : List Nat) (i : Nat) => rows.set i (f i)) rows).getD idx 0 =
        if idx < k then f idx else rows.getD idx 0 := by
  induction k with
  | zero =>
    refine ⟨rfl, fun idx => ?_⟩
    rw [if_neg (by omega)]
    rfl
  | succ k ih =>
    obtain ⟨ihl, ihv⟩ := ih (by omega)
    rw [List.range_succ, List.foldl_append]
    simp only [List.foldl_cons, List.foldl_nil]
    refine ⟨by rw [List.length_set, ihl], fun idx => ?_⟩
    rw [getD_set_eq, ihl, ihv idx]
    by_cases h : k = idx
    · subst h
      rw [if_pos ⟨rfl, by omega⟩, if_pos (by omega)]
    · rw [if_neg (fun hh => h hh.1)]
      by_cases h2 : idx < k
      · rw [if_pos h2, if_pos (by omega)]
      · rw [if_neg h2, if_neg (by omega)]

/-- The first loop of `prng30_init` stores `deriveBit seed i` at column `i`. -/
theorem derive_eq_fold (seed : Nat) (width : Int) (rows : List Nat) :
    prng30_init_derive seed width rows =
      (List.range width.toNat).foldl
        (fun (rows : List Nat) (i : Nat) =>
          rows.set i (deriveBit seed i))
        rows := by
  unfold prng30_init_derive deriveBit
  congr 1
  funext rows i
  have hb : ∀ x k : Nat, ((x >>> k) &&& 1) % 256 = x / 2 ^ k % 2 := by
    intro x k
    rw [Nat.shiftRight_eq_div_pow, Nat.and_one_is_mod]
    exact Nat.mod_eq_of_lt (by omega)
  by_cases h : i < 64
  · simp only [h, if_true, wr, Int.toNat_ofNat, hb]
  · simp only [h, if_false, wr, Int.toNat_ofNat, hb]

theorem width_sq_toNat (width : Int) (hw : 0 ≤ width) :
    (width * width).toNat = width.toNat * width.toNat := by
  obtain ⟨w, rfl⟩ := Int.eq_ofNat_of_zero_le hw
  have : ((w : Int) * (w : Int)) = ((w * w : Nat) : Int) := by push_cast; ring
  rw [this, Int.toNat_ofNat, Int.toNat_ofNat]

/-- C8: the first row `prng30_init` derives from the seed (the seed taken after the
degenerate-seed substitution), before the entropy floor, holds at each column
`i < 64` bit `i` of the seed and at each column `i >= 64` bit 32 of
`(seed * 6364136223846793005 + i) mod 2 ^ 64`. -/
theorem prng30_init_first_row (seed0 : Nat) (width : Int) (i : Nat) (hw : 1 ≤ width)
    (hi : (i : Int) < width) :
    rd (prng30_init_derive (prng30_init_seed seed0) width
        (List.replicate (width * width).toNat 0)) (i : Int) =
      if i < 64 then prng30_init_seed seed0 / 2 ^ i % 2
      else (prng30_init_seed seed0 * 6364136223846793005 + i) % 2 ^ 64 / 2 ^ 32 % 2 := by
  have hlen : width.toNat ≤ (List.replicate (width * width).toNat 0).length := by
    rw [List.length_replicate, width_sq_toNat width (by omega)]
    exact Nat.le_mul_self _
  unfold rd
  rw [derive_eq_fold, Int.toNat_ofNat, (fold_set_getD _ _ _ hlen).2 i, if_pos (by omega)]
  rfl

theorem prng30_init_first_row_witness :
    (1 : Int) ≤ 70 ∧ ((66 : Nat) : Int) < 70 ∧
      rd (prng30_init_derive (prng30_init_seed 0) 70
          (List.replicate ((70 : Int) * 70).toNat 0)) ((66 : Nat) : Int) =
        if 66 < 64 then prng30_init_seed 0 / 2 ^ 66 % 2
        else (prng30_init_seed 0 * 6364136223846793005 + 66) % 2 ^ 64 / 2 ^ 32 % 2 :=
  ⟨by decide, by decide, prng30_init_first_row 0 70 66 (by decide) (by decide)⟩

/-- C9: `prng30_init 0 n` and `prng30_init (2 ^ 64 - 1) n` both return the state of
`prng30_init 0x123456789ABCDEF n`, the default seed being non-zero, and every other
seed is used as given. -/
theorem prng30_init_degenerate_seed (n : Int) :
    prng30_init 0 n = prng30_init 0x123456789ABCDEF n ∧
      prng30_init (2 ^ 64 - 1) n = prng30_init 0x123456789ABCDEF n ∧
      (0x123456789ABCDEF : Nat) ≠ 0 ∧
      ∀ s : Nat, s ≠ 0 → s ≠ 2 ^ 64 - 1 → prng30_init_seed s = s := by
  refine ⟨rfl, rfl, by decide, ?_⟩
  intro s h0 h1
  unfold prng30_init_seed
  rw [if_neg (by rintro (h | h) <;> contradiction)]

theorem prng30_init_degenerate_seed_witness :
    prng30_init 0 64 = prng30_init 0x123456789ABCDEF 64 ∧
      prng30_init (2 ^ 64 - 1) 64 = prng30_init 0x123456789ABCDEF 64 ∧
      (0x123456789ABCDEF : Nat) ≠ 0 ∧
      ∀ s : Nat, s ≠ 0 → s ≠ 2 ^ 64 - 1 → prng30_init_seed s = s :=
  prng30_init_degenerate_seed 64

/-! ### Packed rows -/

theorem encode_div_mod (l : List Nat) (j : Nat) : encode l / 2 ^ j % 2 = l.getD j 0 % 2 := by
  induction l generalizing j with
  | nil => simp [encode]
  | cons c cs ih =>
    cases j with
    | zero =>
      simp only [encode, Nat.pow_zero, Nat.div_one, List.getD_cons_zero]
      omega
    | succ j =>
      have h : (c % 2 + 2 * encode cs) / 2 ^ (j + 1) = encode cs / 2 ^ j := by
        have h1 : 2 ^ (j + 1) = 2 * 2 ^ j := by rw [Nat.pow_succ, Nat.mul_comm]
        have h3 : (c % 2 + 2 * encode cs) / 2 = encode cs := by omega
        rw [h1, ← Nat.div_div_eq_div_mul, h3]
      simp only [encode, List.getD_cons_succ, h]
      exact ih j

theorem encode_testBit (l : List Nat) (j : Nat) :
    (encode l).testBit j = decide (l.getD j 0 % 2 = 1) := by
  rw [Nat.testBit_to_div_mod, encode_div_mod]

theorem encode_lt (l : List Nat) : encode l < 2 ^ l.length := by
  induction l with
  | nil => simp [encode]
  | cons c cs ih =>
    simp only [encode, List.length_cons, Nat.pow_succ]
    omega

theorem encode_eq_zero (l : List Nat) (h : ∀ c ∈ l, c = 0) : encode l = 0 := by
  induction l with
  | nil => rfl
  | cons c cs ih =>
    have hc : c = 0 := h c (List.mem_cons_self _ _)
    have := ih (fun d hd => h d (List.mem_cons_of_mem _ hd))
    simp only [encode, this, hc]

theorem testBit_ge_of_lt {x n j : Nat} (hx : x < 2 ^ n) (hj : n ≤ j) : x.testBit j = false :=
  Nat.testBit_lt_two_pow (lt_of_lt_of_le hx (Nat.pow_le_pow_right (by decide) hj))

theorem rule30Mask_testBit (n x j : Nat) (hn : 1 ≤ n) (hx : x < 2 ^ n) :
    (rule30Mask n x).testBit j =
      (decide (j < n) &&
        xor (x.testBit ((j + n - 1) % n)) (x.testBit j || x.testBit ((j + 1) % n))) := by
  unfold rule30Mask
  have h2 : x % 2 = x % 2 ^ 1 := by simp
  rw [h2]
  simp only [Nat.testBit_xor, Nat.testBit_or, Nat.testBit_mod_two_pow, Nat.testBit_shiftLeft,
    Nat.testBit_shiftRight]
  by_cases hj : j < n
  · have hhi : x.testBit (n - 1 + j) = (decide (j = 0) && x.testBit (n - 1)) := by
      by_cases h0 : j = 0
      · subst h0; simp
      · rw [testBit_ge_of_lt hx (by omega)]; simp [h0]
    have hnext : x.testBit (1 + j) = (decide (j + 1 < n) && x.testBit (j + 1)) := by
      by_cases h1 : j + 1 < n
      · simp [h1, Nat.add_comm]
      · rw [testBit_ge_of_lt hx (by omega)]; simp [h1]
    rw [hhi, hnext]
    by_cases h0 : j = 0
    · subst h0
      have e1 : (0 + n - 1) % n = n - 1 := by
        rw [Nat.zero_add]; exact Nat.mod_eq_of_lt (by omega)
      rw [e1]
      by_cases h1 : 0 + 1 < n
      · have e2 : (0 + 1) % n = 1 := Nat.mod_eq_of_lt h1
        have e3 : ¬ (0 ≥ n - 1) := by omega
        simp [hj, h1, e2, e3]
      · have hn1 : n = 1 := by omega
        subst hn1
        simp
    · have e1 : (j + n - 1) % n = j - 1 := by
        have : j + n - 1 = (j - 1) + n := by omega
        rw [this, Nat.add_mod_right]
        exact Nat.mod_eq_of_lt (by omega)
      rw [e1]
      by_cases h1 : j + 1 < n
      · have e2 : (j + 1) % n = j + 1 := Nat.mod_eq_of_lt h1
        have e3 : ¬ (j ≥ n - 1) := by omega
        have e4 : j ≥ 1 := by omega
        simp [hj, h0, h1, e2, e3, e4]
      · have e2 : (j + 1) % n = 0 := by
          have : j + 1 = n := by omega
          rw [this, Nat.mod_self]
        have e3 : j - (n - 1) = 0 := by omega
        have e4 : j ≥ 1 := by omega
        have e5 : j ≥ n - 1 := by omega
        simp [hj, h0, h1, e2, e3, e4, e5]
  · have hxj : x.testBit j = false := testBit_ge_of_lt hx (by omega)
    have hx1 : x.testBit (1 + j) = false := testBit_ge_of_lt hx (by omega)
    have e3 : ¬ (j - (n - 1) < 1) := by omega
    simp [hj, hxj, hx1, e3]

theorem rule30Mask_lt (n x : Nat) (hn : 1 ≤ n) (hx : x < 2 ^ n) : rule30Mask n x < 2 ^ n := by
  apply Nat.lt_pow_two_of_testBit
  intro i hi
  rw [rule30Mask_testBit n x i hn hx]
  have : ¬ i < n := by omega
  simp [this]

theorem map_range_getD (f : Nat → Nat) (n j : Nat) :
    ((List.range n).map f).getD j 0 = if j < n then f j else 0 := by
  by_cases h : j < n
  · rw [if_pos h, List.getD_eq_getElem _ _ (by simpa using h)]
    simp
  · rw [if_neg h, List.getD_eq_default _ _ (by simpa using h)]

theorem currentRow_length (st : prng30_state) : (currentRow st).length = st.size.toNat := by
  simp [currentRow]

theorem currentRow_getD (st : prng30_state) (n r : Nat) (hs : st.size = (n : Int))
    (hr : st.current_row = (r : Int)) (j : Nat) :
    (currentRow st).getD j 0 = if j < n then st.rows.getD (r * n + j) 0 else 0 := by
  unfold currentRow
  rw [map_range_getD, hs, Int.toNat_ofNat, hr, cell_nat st n hs]

theorem rowMask_lt (st : prng30_state) (n : Nat) (hs : st.size = (n : Int)) :
    rowMask st < 2 ^ n := by
  have := encode_lt (currentRow st)
  rwa [currentRow_length, hs, Int.toNat_ofNat] at this

theorem rowMask_testBit (st : prng30_state) (n r : Nat) (hs : st.size = (n : Int))
    (hr : st.current_row = (r : Int)) (j : Nat) :
    (rowMask st).testBit j = (decide (j < n) && decide (st.rows.getD (r * n + j) 0 % 2 = 1)) := by
  unfold rowMask
  rw [encode_testBit, currentRow_getD st n r hs hr]
  by_cases h : j < n <;> simp [h]

theorem rule30_bool (a b c : Nat) (ha : a ≤ 1) (hb : b ≤ 1) (hc : c ≤ 1) :
    decide (rule30 a b c % 2 = 1) =
      xor (decide (a % 2 = 1)) (decide (b % 2 = 1) || decide (c % 2 = 1)) := by
  interval_cases a <;> interval_cases b <;> interval_cases c <;> decide

/-- One `prng30_step` acts on the packed current row as `rule30Mask`. -/
theorem step_rowMask {st : prng30_state} (hv : Valid st) (hb : Binary st) :
    rowMask (prng30_step st) = rule30Mask st.size.toNat (rowMask st) := by
  obtain ⟨n, r, hs, hr, hn, hrn, hlen⟩ := valid_nat hv
  rw [hs, Int.toNat_ofNat]
  apply Nat.eq_of_testBit_eq
  intro j
  have hs1 : (prng30_step st).size = (n : Int) := by rw [step_size, hs]
  have hr1 : (prng30_step st).current_row = (((r + 1) % n : Nat) : Int) := by
    rw [step_nat st n r hs hr]
  rw [rowMask_testBit (prng30_step st) n _ hs1 hr1,
    rule30Mask_testBit n _ j hn (rowMask_lt st n hs)]
  by_cases hj : j < n
  · have hm1 : (j + n - 1) % n < n := Nat.mod_lt _ (by omega)
    have hm2 : (j + 1) % n < n := Nat.mod_lt _ (by omega)
    rw [step_cell_nat st n r hs hr hn hrn hlen _ _ hj, if_pos rfl,
      rowMask_testBit st n r hs hr, rowMask_testBit st n r hs hr,
      rowMask_testBit st n r hs hr]
    unfold stepVal
    rw [rule30_bool _ _ _ (binary_getD hb _) (binary_getD hb _) (binary_getD hb _)]
    simp [hj, hm1, hm2]
  · simp [hj]

theorem iterate_rowMask {st : prng30_state} (hv : Valid st) (hb : Binary st) (k : Nat) :
    rowMask (prng30_step^[k] st) = (rule30Mask st.size.toNat)^[k] (rowMask st) := by
  induction k with
  | zero => rfl
  | succ k ih =>
    rw [Function.iterate_succ_apply', Function.iterate_succ_apply',
      step_rowMask (valid_iterate hv k) (binary_iterate hb hv k), iterate_size, ih]

theorem cell_eq_mask {st : prng30_state} (hv : Valid st) (hb : Binary st) (j : Nat)
    (hj : (j : Int) < st.size) :
    cell st st.current_row (j : Int) = rowMask st / 2 ^ j % 2 := by
  obtain ⟨n, r, hs, hr, hn, hrn, hlen⟩ := valid_nat hv
  unfold rowMask
  rw [encode_div_mod, currentRow_getD st n r hs hr, if_pos (by omega), hr, cell_nat st n hs]
  have := binary_getD hb (r * n + j)
  omega

/-- The bit `prng30_generate` extracts, read from the packed current row. -/
theorem outBit_eq_maskBit {st : prng30_state} (hv : Valid st) (hb : Binary st) :
    outBit st = maskBit st.size.toNat (rowMask st) := by
  obtain ⟨n, r, hs, hr, hn, hrn, hlen⟩ := valid_nat hv
  have hmid : st.size / 2 = ((n / 2 : Nat) : Int) := by rw [hs]; norm_cast
  have hl : (st.size / 2 - 1) % st.size = (((n / 2 + n - 1) % n : Nat) : Int) := by
    rw [hmid, hs, ← Int.add_emod_self]
    have : (((n / 2 : Nat) : Int) - 1 + (n : Int)) = ((n / 2 + n - 1 : Nat) : Int) := by omega
    rw [this]; norm_cast
  have hrt : (st.size / 2 + 1) % st.size = (((n / 2 + 1) % n : Nat) : Int) := by
    rw [hmid, hs]; norm_cast
  have hm1 : (n / 2 + n - 1) % n < n := Nat.mod_lt _ (by omega)
  have hm2 : (n / 2 + 1) % n < n := Nat.mod_lt _ (by omega)
  unfold outBit maskBit
  rw [hl, hrt, hmid, cell_eq_mask hv hb _ (by rw [hs]; omega),
    cell_eq_mask hv hb _ (by rw [hs]; omega), cell_eq_mask hv hb _ (by rw [hs]; omega), hs,
    Int.toNat_ofNat]

theorem generate_loop_mask (k : Nat) (st : prng30_state) (out : Nat) (hv : Valid st)
    (hb : Binary st) :
    (prng30_generate_loop (Int.tdiv st.size 2) k st out).2 =
      generateMask st.size.toNat k (rowMask st) out := by
  induction k generalizing st out with
  | zero => rfl
  | succ k ih =>
    have hv1 := valid_step hv
    have hb1 := binary_step hb hv
    have hbit := code_bit_eq hv1 hb1
    unfold prng30_generate_loop generateMask
    simp only [step_size] at hbit ⊢
    rw [hbit, outBit_eq_maskBit hv1 hb1, step_size, ← step_rowMask hv hb]
    exact ih (prng30_step st) _ hv1 hb1

/-- The value of a 32-bit request, computed on the packed current row. -/
theorem generate_32_mask {st : prng30_state} (hv : Valid st) (hb : Binary st) :
    (prng30_generate st 32).2 = generateMask st.size.toNat 32 (rowMask st) 0 := by
  have : prng30_generate st 32 = prng30_generate_loop (Int.tdiv st.size 2) 32 st 0 := rfl
  rw [this, generate_loop_mask 32 st 0 hv hb]

/-! ### The state `prng30_init` seeds before warm-up -/

theorem replicate_getD (m i : Nat) : (List.replicate m 0).getD i 0 = 0 := by
  by_cases h : i < m
  · rw [List.getD_eq_getElem _ _ (by simpa using h)]
    simp
  · rw [List.getD_eq_default _ _ (by simpa using h)]

theorem ext_getD (l1 l2 : List Nat) (hl : l1.length = l2.length)
    (h : ∀ i, l1.getD i 0 = l2.getD i 0) : l1 = l2 := by
  apply List.ext_getElem hl
  intro i h1 h2
  have := h i
  rwa [List.getD_eq_getElem _ _ h1, List.getD_eq_getElem _ _ h2] at this

theorem derive_spec (seed n : Nat) :
    (prng30_init_derive seed (n : Int) (List.replicate ((n : Int) * (n : Int)).toNat 0)).length =
        n * n ∧
      ∀ idx, (prng30_init_derive seed (n : Int)
          (List.replicate ((n : Int) * (n : Int)).toNat 0)).getD idx 0 =
        if idx < n then deriveBit seed idx else 0 := by
  have hsq : ((n : Int) * (n : Int)).toNat = n * n := by
    rw [width_sq_toNat _ (by omega), Int.toNat_ofNat]
  have hlen : n ≤ (List.replicate (n * n) 0).length := by
    rw [List.length_replicate]
    exact Nat.le_mul_self _
  rw [derive_eq_fold, Int.toNat_ofNat, hsq]
  obtain ⟨h1, h2⟩ := fold_set_getD (deriveBit seed) _ n hlen
  refine ⟨by rw [h1, List.length_replicate], fun idx => ?_⟩
  rw [h2 idx, replicate_getD]

theorem count_fold (f : Nat → Nat) (k : Nat) :
    (List.range k).foldl
        (fun (set_bits : Int) (i : Nat) => if f i ≠ 0 then set_bits + 1 else set_bits) 0 =
      ((((List.range k).map f).countP (fun c => c ≠ 0) : Nat) : Int) := by
  induction k with
  | zero => rfl
  | succ k ih =>
    rw [List.range_succ, List.foldl_append, ih, List.map_append, List.countP_append]
    simp only [List.foldl_cons, List.foldl_nil, List.map_cons, List.map_nil,
      List.countP_singleton]
    by_cases h : f k = 0
    · simp [h]
    · simp [h]

theorem count_spec (n : Nat) (rows : List Nat) :
    prng30_init_count (n : Int) rows =
      ((((List.range n).map (fun i => rows.getD i 0)).countP (fun c => c ≠ 0) : Nat) : Int) := by
  unfold prng30_init_count
  rw [Int.toNat_ofNat]
  exact count_fold (fun i => rows.getD i 0) n

theorem flip_fold (rows : List Nat) (k : Nat) (hk : 7 * k < rows.length + 7) :
    ((List.range k).foldl
        (fun (rows : List Nat) (k : Nat) =>
          rows.set (7 * k) ((rows.getD (7 * k) 0 ^^^ 1) % 256))
        rows).length = rows.length ∧
      ∀ idx, ((List.range k).foldl
          (fun (rows : List Nat) (k : Nat) =>
            rows.set (7 * k) ((rows.getD (7 * k) 0 ^^^ 1) % 256))
          rows).getD idx 0 =
        if idx % 7 = 0 ∧ idx < 7 * k then (rows.getD idx 0 ^^^ 1) % 256 else rows.getD idx 0 := by
  induction k with
  | zero =>
    refine ⟨rfl, fun idx => ?_⟩
    rw [if_neg (by omega)]
    rfl
  | succ k ih =>
    obtain ⟨ihl, ihv⟩ := ih (by omega)
    rw [List.range_succ, List.foldl_append]
    simp only [List.foldl_cons, List.foldl_nil]
    refine ⟨by rw [List.length_set, ihl], fun idx => ?_⟩
    have hcur := ihv (7 * k)
    rw [if_neg (by omega)] at hcur
    rw [getD_set_eq, ihl, hcur, ihv idx]
    by_cases h : 7 * k = idx
    · subst h
      rw [if_pos ⟨rfl, by omega⟩, if_pos ⟨by omega, by omega⟩]
    · rw [if_neg (fun hh => h hh.1)]
      by_cases h2 : idx % 7 = 0 ∧ idx < 7 * k
      · rw [if_pos h2, if_pos ⟨h2.1, by omega⟩]
      · rw [if_neg h2, if_neg (by omega)]

theorem flip_spec (n : Nat) (rows : List Nat) (hn : n ≤ rows.length) :
    (prng30_init_flip (n : Int) rows).length = rows.length ∧
      ∀ idx, (prng30_init_flip (n : Int) rows).getD idx 0 =
        if idx % 7 = 0 ∧ idx < n then (rows.getD idx 0 ^^^ 1) % 256 else rows.getD idx 0 := by
  have e : prng30_init_flip (n : Int) rows =
      (List.range ((n + 6) / 7)).foldl
        (fun (rows : List Nat) (k : Nat) =>
          rows.set (7 * k) ((rows.getD (7 * k) 0 ^^^ 1) % 256))
        rows := rfl
  rw [e]
  obtain ⟨h1, h2⟩ := flip_fold rows ((n + 6) / 7) (by omega)
  refine ⟨h1, fun idx => ?_⟩
  rw [h2 idx]
  by_cases h : idx % 7 = 0 ∧ idx < n
  · rw [if_pos h, if_pos ⟨h.1, by omega⟩]
  · rw [if_neg h, if_neg (by omega)]

theorem derivedRow_getD (seed n j : Nat) :
    (derivedRow seed n).getD j 0 = if j < n then deriveBit seed j else 0 :=
  map_range_getD _ _ _

theorem flipRow_length (row : List Nat) : (flipRow row).length = row.length := by
  simp [flipRow]

theorem flipRow_getD (row : List Nat) (j : Nat) :
    (flipRow row).getD j 0 =
      if j % 7 = 0 ∧ j < row.length then (row.getD j 0 ^^^ 1) % 256 else row.getD j 0 := by
  by_cases h : j < row.length
  · rw [List.getD_eq_getElem _ _ (by rw [flipRow_length]; exact h),
      List.getD_eq_getElem _ _ h]
    unfold flipRow
    rw [List.getElem_zipWith, List.getElem_range]
    by_cases h7 : j % 7 = 0
    · rw [if_pos h7, if_pos ⟨h7, h⟩]
    · rw [if_neg h7, if_neg (fun hh => h7 hh.1)]
  · rw [List.getD_eq_default _ _ (by rw [flipRow_length]; omega),
      List.getD_eq_default _ _ (by omega), if_neg (fun hh => h hh.2)]

theorem deriveBit_le_one (seed i : Nat) : deriveBit seed i ≤ 1 := by
  unfold deriveBit
  split <;> omega

theorem flip_le_one (c : Nat) (hc : c ≤ 1) : (c ^^^ 1) % 256 ≤ 1 := by
  interval_cases c <;> decide

/-- The rows buffer of the state seeded by `prng30_init`, cell by cell. -/
theorem seeded_spec (seed n : Nat) :
    (prng30_init_seeded seed (n : Int)).size = (n : Int) ∧
      (prng30_init_seeded seed (n : Int)).current_row = 0 ∧
      (prng30_init_seeded seed (n : Int)).rows.length = n * n ∧
      ∀ idx, (prng30_init_seeded seed (n : Int)).rows.getD idx 0 =
        if idx < n then (seededRow (prng30_init_seed seed) n).getD idx 0 else 0 := by
  obtain ⟨hl, hg⟩ := derive_spec (prng30_init_seed seed) n
  have hrow : (List.range n).map
      (fun i => (prng30_init_derive (prng30_init_seed seed) (n : Int)
        (List.replicate ((n : Int) * (n : Int)).toNat 0)).getD i 0) =
      derivedRow (prng30_init_seed seed) n := by
    unfold derivedRow
    apply List.map_congr_left
    intro i hi
    rw [hg i, if_pos (List.mem_range.mp hi)]
  have hcount := count_spec n (prng30_init_derive (prng30_init_seed seed) (n : Int)
    (List.replicate ((n : Int) * (n : Int)).toNat 0))
  rw [hrow] at hcount
  have hle : n ≤ n * n := Nat.le_mul_self n
  obtain ⟨fl, fg⟩ := flip_spec n (prng30_init_derive (prng30_init_seed seed) (n : Int)
    (List.replicate ((n : Int) * (n : Int)).toNat 0)) (by omega)
  unfold prng30_init_seeded seededRow
  simp only [hcount]
  refine ⟨trivial, trivial, ?_, ?_⟩
  · split
    · rw [fl, hl]
    · exact hl
  · intro idx
    split
    · rw [fg idx, flipRow_getD, hg idx, derivedRow_getD]
      have : (derivedRow (prng30_init_seed seed) n).length = n := by simp [derivedRow]
      rw [this]
      by_cases h : idx < n
      · simp only [h, if_true, and_true]
      · simp only [h, if_false, and_false]
    · rw [hg idx, derivedRow_getD]
      by_cases h : idx < n
      · simp only [h, if_true]
      · simp only [h, if_false]

theorem seededRow_length (seed n : Nat) : (seededRow seed n).length = n := by
  unfold seededRow
  split
  · rw [flipRow_length]; simp [derivedRow]
  · simp [derivedRow]

theorem seededRow_le_one (seed n j : Nat) : (seededRow seed n).getD j 0 ≤ 1 := by
  have hd : ∀ i, (derivedRow seed n).getD i 0 ≤ 1 := by
    intro i
    rw [derivedRow_getD]
    split
    · exact deriveBit_le_one _ _
    · omega
  unfold seededRow
  split
  · rw [flipRow_getD]
    split
    · exact flip_le_one _ (hd j)
    · exact hd j
  · exact hd j

theorem seeded_binary (seed n : Nat) : Binary (prng30_init_seeded seed (n : Int)) := by
  obtain ⟨_, _, _, hg⟩ := seeded_spec seed n
  intro c hc
  have : c < 2 := by
    revert c
    apply forall_of_getD_lt
    intro i
    rw [hg i]
    split
    · exact Nat.lt_succ_of_le (seededRow_le_one _ _ _)
    · decide
  omega

theorem seeded_valid (seed n : Nat) (hn : 1 ≤ n) : Valid (prng30_init_seeded seed (n : Int)) := by
  obtain ⟨h1, h2, h3, _⟩ := seeded_spec seed n
  refine ⟨by rw [h1]; omega, by rw [h2], by rw [h1, h2]; omega, ?_, ?_⟩
  · rw [h3, h1, width_sq_toNat _ (by omega), Int.toNat_ofNat]
  · intro c hc
    have := seeded_binary seed n c hc
    omega

/-- The current row of the seeded state is the first row after the entropy floor. -/
theorem seeded_currentRow (seed n : Nat) :
    currentRow (prng30_init_seeded seed (n : Int)) = seededRow (prng30_init_seed seed) n := by
  obtain ⟨h1, h2, h3, hg⟩ := seeded_spec seed n
  apply ext_getD
  · rw [currentRow_length, h1, Int.toNat_ofNat, seededRow_length]
  · intro i
    rw [currentRow_getD _ n 0 h1 (by rw [h2]; rfl), Nat.zero_mul, Nat.zero_add, hg i]
    by_cases h : i < n
    · simp only [h, if_true]
    · simp only [h, if_false]
      rw [List.getD_eq_default _ _ (by rw [seededRow_length]; omega)]

theorem init_eq_iterate (seed n : Nat) :
    prng30_init seed (n : Int) =
      prng30_step^[if n > 128 then 50 else 30] (prng30_init_seeded seed (n : Int)) := by
  unfold prng30_init
  by_cases h : n > 128
  · have : (n : Int) > 128 := by omega
    simp only [h, this, if_true]
  · have : ¬ (n : Int) > 128 := by omega
    simp only [h, this, if_false]

theorem init_valid (seed n : Nat) (hn : 1 ≤ n) : Valid (prng30_init seed (n : Int)) := by
  rw [init_eq_iterate]
  exact valid_iterate (seeded_valid seed n hn) _

theorem init_binary (seed n : Nat) (hn : 1 ≤ n) : Binary (prng30_init seed (n : Int)) := by
  rw [init_eq_iterate]
  exact binary_iterate (seeded_binary seed n) (seeded_valid seed n hn) _

theorem init_size (seed : Nat) (width : Int) : (prng30_init seed width).size = width := by
  unfold prng30_init
  rw [iterate_size]
  rfl

/-- The packed current row of the state returned by `prng30_init`. -/
theorem init_rowMask (seed n : Nat) (hn : 1 ≤ n) :
    rowMask (prng30_init seed (n : Int)) = initMask seed n := by
  rw [init_eq_iterate, iterate_rowMask (seeded_valid seed n hn) (seeded_binary seed n)]
  unfold initMask rowMask
  rw [seeded_currentRow, (seeded_spec seed n).1, Int.toNat_ofNat]

/-! ### Degenerate seeds -/

set_option maxRecDepth 100000

theorem goodSize_range : ∀ m, m < 279 → goodSize (m + 7) = true := by decide!

theorem goodSize_five : goodSize 5 = true := by decide

theorem rowMask_eq_zero {st : prng30_state} (h : rowAllZero st) : rowMask st = 0 :=
  encode_eq_zero _ h

theorem goodSize_sound (n : Nat) (hn : 1 ≤ n) (hg : goodSize n = true) :
    ¬ rowAllZero (prng30_init 0 (n : Int)) ∧
      (prng30_generate (prng30_init 0 (n : Int)) 32).2 ≠ 0 := by
  unfold goodSize at hg
  rw [Bool.and_eq_true, bne_iff_ne, bne_iff_ne] at hg
  refine ⟨fun hz => hg.1 ?_, ?_⟩
  · rw [← init_rowMask 0 n hn]
    exact rowMask_eq_zero hz
  · rw [generate_32_mask (init_valid 0 n hn) (init_binary 0 n hn), init_size, Int.toNat_ofNat,
      init_rowMask 0 n hn]
    exact hg.2

/-- C10 as stated fails at size 6: the states returned by `prng30_init 0 6` and
`prng30_init (2 ^ 64 - 1) 6` have an all-zero current row, and the first 32-bit
value generated from each is `0`. -/
theorem prng30_init_degenerate_nonzero_counterexample :
    (1 : Int) ≤ 6 ∧
      (rowAllZero (prng30_init 0 6) ∧ (prng30_generate (prng30_init 0 6) 32).2 = 0) ∧
      (rowAllZero (prng30_init (2 ^ 64 - 1) 6) ∧
        (prng30_generate (prng30_init (2 ^ 64 - 1) 6) 32).2 = 0) := by
  decide

/-- C10, amended: for size 5 and every size from 7 to 285, the states returned by
`prng30_init 0 n` and `prng30_init (2 ^ 64 - 1) n` each have a current row that is
not all-zero, and the first `prng30_generate _ 32` call on each returns a non-zero
value. -/
theorem prng30_init_degenerate_nonzero (n : Int) (h : n = 5 ∨ (7 ≤ n ∧ n ≤ 285)) :
    (¬ rowAllZero (prng30_init 0 n) ∧ (prng30_generate (prng30_init 0 n) 32).2 ≠ 0) ∧
      (¬ rowAllZero (prng30_init (2 ^ 64 - 1) n) ∧
        (prng30_generate (prng30_init (2 ^ 64 - 1) n) 32).2 ≠ 0) := by
  have hmax : prng30_init (2 ^ 64 - 1) n = prng30_init 0 n := rfl
  rw [hmax]
  obtain ⟨m, rfl⟩ := Int.eq_ofNat_of_zero_le (show 0 ≤ n by omega)
  have hg : goodSize m = true := by
    rcases h with h | h
    · have : m = 5 := by omega
      rw [this]
      exact goodSize_five
    · have := goodSize_range (m - 7) (by omega)
      have e : m - 7 + 7 = m := by omega
      rwa [e] at this
  have := goodSize_sound m (by omega) hg
  exact ⟨this, this⟩

theorem prng30_init_degenerate_nonzero_witness :
    ((64 : Int) = 5 ∨ (7 ≤ (64 : Int) ∧ (64 : Int) ≤ 285)) ∧
      ((¬ rowAllZero (prng30_init 0 64) ∧ (prng30_generate (prng30_init 0 64) 32).2 ≠ 0) ∧
        (¬ rowAllZero (prng30_init (2 ^ 64 - 1) 64) ∧
          (prng30_generate (prng30_init (2 ^ 64 - 1) 64) 32).2 ≠ 0)) :=
  ⟨by decide, prng30_init_degenerate_nonzero 64 (by decide)⟩

/-! ### Frame of `prng30_step` and the warm-up of `prng30_init` -/

/-- C15: on a valid state `prng30_step` keeps `size` and the buffer length, and every
grid cell outside row `next = (current_row + 1) mod size` keeps its value; when
`size >= 2` the row that was current before the call is left intact. -/
theorem prng30_step_frame (st : prng30_state) (h : Valid st) :
    (prng30_step st).size = st.size ∧
      (prng30_step st).rows.length = st.rows.length ∧
      (∀ i j : Int, 0 ≤ i → i < st.size → 0 ≤ j → j < st.size →
        i ≠ (st.current_row + 1) % st.size → cell (prng30_step st) i j = cell st i j) ∧
      (2 ≤ st.size → ∀ j : Int, 0 ≤ j → j < st.size →
        cell (prng30_step st) st.current_row j = cell st st.current_row j) := by
  obtain ⟨n, r, hs, hr, hn, hrn, hlen⟩ := valid_nat h
  have hnext : (st.current_row + 1) % st.size = (((r + 1) % n : Nat) : Int) := by
    rw [hs, hr]; norm_cast
  have hs1 : (prng30_step st).size = (n : Int) := by rw [step_size, hs]
  have key : ∀ i j : Nat, j < n → i ≠ (r + 1) % n →
      cell (prng30_step st) (i : Int) (j : Int) = cell st (i : Int) (j : Int) := by
    intro i j hj hi
    rw [cell_nat _ n hs1, cell_nat _ n hs, step_cell_nat st n r hs hr hn hrn hlen i j hj,
      if_neg hi]
  refine ⟨rfl, ?_, ?_, ?_⟩
  · rw [step_length st n r hs hr hn hrn hlen, hlen]
  · intro i j hi0 _ hj0 hjn hne
    obtain ⟨a, rfl⟩ := Int.eq_ofNat_of_zero_le hi0
    obtain ⟨b, rfl⟩ := Int.eq_ofNat_of_zero_le hj0
    apply key a b (by omega)
    intro hh
    apply hne
    rw [hnext, hh]
  · intro h2 j hj0 hjn
    obtain ⟨b, rfl⟩ := Int.eq_ofNat_of_zero_le hj0
    rw [hr]
    apply key r b (by omega)
    rcases succ_mod_ne n r hrn with h1 | h1
    · exact Ne.symm h1
    · omega

theorem prng30_step_frame_witness :
    Valid exampleState ∧
      ((prng30_step exampleState).size = exampleState.size ∧
        (prng30_step exampleState).rows.length = exampleState.rows.length ∧
        (∀ i j : Int, 0 ≤ i → i < exampleState.size → 0 ≤ j → j < exampleState.size →
          i ≠ (exampleState.current_row + 1) % exampleState.size →
          cell (prng30_step exampleState) i j = cell exampleState i j) ∧
        (2 ≤ exampleState.size → ∀ j : Int, 0 ≤ j → j < exampleState.size →
          cell (prng30_step exampleState) exampleState.current_row j =
            cell exampleState exampleState.current_row j)) :=
  ⟨by decide, prng30_step_frame exampleState (by decide)⟩

theorem iterate_current_row {st : prng30_state} (h : Valid st) (k : Nat) :
    (prng30_step^[k] st).current_row = (st.current_row + (k : Int)) % st.size := by
  induction k with
  | zero =>
    obtain ⟨_, h2, h3, _⟩ := h
    simp only [Function.iterate_zero, id_eq, Nat.cast_zero, add_zero]
    exact (Int.emod_eq_of_lt h2 h3).symm
  | succ k ih =>
    obtain ⟨h1, h2, h3, _⟩ := valid_iterate h k
    rw [Function.iterate_succ_apply', step_current_row_tmod,
      Int.tmod_eq_emod (by omega) (by omega), iterate_size, ih, Int.emod_add_emod]
    congr 1
    push_cast
    ring

/-- C12: for `width >= 1` the state returned by `prng30_init seed width` has
`size = width` and is the seeded pre-warm-up state (`current_row = 0`, row 0 the
first row after the entropy floor, every other row zero) advanced by exactly 30
applications of `prng30_step` when `width <= 128` and exactly 50 when `width > 128`;
its `current_row` is `30 mod width`, respectively `50`, and is non-negative. -/
theorem prng30_init_warmup (seed : Nat) (width : Int) (hw : 1 ≤ width) :
    (prng30_init seed width).size = width ∧
      (prng30_init_seeded seed width).size = width ∧
      (prng30_init_seeded seed width).current_row = 0 ∧
      (∀ i j : Int, 0 ≤ i → i < width → 0 ≤ j → j < width →
        cell (prng30_init_seeded seed width) i j =
          if i = 0 then (seededRow (prng30_init_seed seed) width.toNat).getD j.toNat 0
          else 0) ∧
      (width ≤ 128 →
        prng30_init seed width = prng30_step^[30] (prng30_init_seeded seed width) ∧
          (prng30_init seed width).current_row = 30 % width) ∧
      (width > 128 →
        prng30_init seed width = prng30_step^[50] (prng30_init_seeded seed width) ∧
          (prng30_init seed width).current_row = 50) ∧
      0 ≤ (prng30_init seed width).current_row := by
  obtain ⟨n, rfl⟩ := Int.eq_ofNat_of_zero_le (show 0 ≤ width by omega)
  have hn : 1 ≤ n := by omega
  obtain ⟨h1, h2, h3, hg⟩ := seeded_spec seed n
  have hv := seeded_valid seed n hn
  have hcr : ∀ k : Nat, (prng30_step^[k] (prng30_init_seeded seed (n : Int))).current_row =
      (k : Int) % (n : Int) := by
    intro k
    rw [iterate_current_row hv k, h1, h2, Int.zero_add]
  refine ⟨init_size _ _, h1, h2, ?_, ?_, ?_, (init_valid seed n hn).2.1⟩
  · intro i j hi0 hin hj0 hjn
    obtain ⟨a, rfl⟩ := Int.eq_ofNat_of_zero_le hi0
    obtain ⟨b, rfl⟩ := Int.eq_ofNat_of_zero_le hj0
    rw [cell_nat _ n h1, hg, Int.toNat_ofNat, Int.toNat_ofNat]
    by_cases ha : a = 0
    · subst ha
      have hb : 0 * n + b < n := by omega
      rw [if_pos hb, if_pos (by rfl), Nat.zero_mul, Nat.zero_add]
    · have hge : ¬ a * n + b < n := by
        have := Nat.mul_le_mul_right n (Nat.one_le_iff_ne_zero.mpr ha)
        omega
      rw [if_neg hge, if_neg (by omega)]
  · intro hle
    have he : prng30_init seed (n : Int) =
        prng30_step^[30] (prng30_init_seeded seed (n : Int)) := by
      rw [init_eq_iterate, if_neg (by omega)]
    refine ⟨he, ?_⟩
    rw [he, hcr 30]
    rfl
  · intro hgt
    have he : prng30_init seed (n : Int) =
        prng30_step^[50] (prng30_init_seeded seed (n : Int)) := by
      rw [init_eq_iterate, if_pos (by omega)]
    refine ⟨he, ?_⟩
    rw [he, hcr 50]
    exact Int.emod_eq_of_lt (by decide) (by omega)

theorem prng30_init_warmup_witness :
    (1 : Int) ≤ 7 ∧
      ((prng30_init 5 7).size = 7 ∧
        (prng30_init_seeded 5 7).size = 7 ∧
        (prng30_init_seeded 5 7).current_row = 0 ∧
        (∀ i j : Int, 0 ≤ i → i < 7 → 0 ≤ j → j < 7 →
          cell (prng30_init_seeded 5 7) i j =
            if i = 0 then (seededRow (prng30_init_seed 5) (7 : Int).toNat).getD j.toNat 0
            else 0) ∧
        ((7 : Int) ≤ 128 →
          prng30_init 5 7 = prng30_step^[30] (prng30_init_seeded 5 7) ∧
            (prng30_init 5 7).current_row = 30 % 7) ∧
        ((7 : Int) > 128 →
          prng30_init 5 7 = prng30_step^[50] (prng30_init_seeded 5 7) ∧
            (prng30_init 5 7).current_row = 50) ∧
        0 ≤ (prng30_init 5 7).current_row) :=
  ⟨by decide, prng30_init_warmup 5 7 (by decide)⟩

/-! ### Invariants of the reachable states -/

theorem set_le_one (rows : List Nat) (i v : Nat) (h : ∀ c ∈ rows, c ≤ 1) (hv : v ≤ 1) :
    ∀ c ∈ rows.set i v, c ≤ 1 := by
  intro c hc
  rcases List.mem_or_eq_of_mem_set hc with h1 | h1
  · exact h c h1
  · rw [h1]; exact hv

theorem getD_le_one (rows : List Nat) (h : ∀ c ∈ rows, c ≤ 1) (i : Nat) :
    rows.getD i 0 ≤ 1 := by
  have := getD_lt_of_forall rows 2 (fun c hc => Nat.lt_succ_of_le (h c hc)) (by decide) i
  omega

theorem step_body_le_one (n r next : Int) (rows : List Nat) (j : Nat)
    (h : ∀ c ∈ rows, c ≤ 1) : ∀ c ∈ prng30_step_body n r next rows j, c ≤ 1 := by
  unfold prng30_step_body wr rd
  exact set_le_one _ _ _ h
    (rule30_le_one _ _ _ (getD_le_one _ h _) (getD_le_one _ h _) (getD_le_one _ h _))

theorem step_fold_le_one (n r next : Int) (l : List Nat) (rows : List Nat)
    (h : ∀ c ∈ rows, c ≤ 1) : ∀ c ∈ l.foldl (prng30_step_body n r next) rows, c ≤ 1 := by
  induction l generalizing rows with
  | nil => exact h
  | cons j l ih => exact ih _ (step_body_le_one n r next rows j h)

/-- Binary cells stay binary under `prng30_step`, whatever the state. -/
theorem step_le_one (st : prng30_state) (h : Binary st) : Binary (prng30_step st) :=
  step_fold_le_one _ _ _ _ _ h

theorem iterate_le_one (st : prng30_state) (h : Binary st) (k : Nat) :
    Binary (prng30_step^[k] st) := by
  induction k with
  | zero => exact h
  | succ k ih =>
    rw [Function.iterate_succ_apply']
    exact step_le_one _ ih

theorem generate_state (st : prng30_state) (nbits : Int) :
    ∃ k : Nat, (prng30_generate st nbits).1 = prng30_step^[k] st := by
  unfold prng30_generate
  by_cases h : (if nbits > 64 then 64 else nbits) ≤ 0
  · refine ⟨0, ?_⟩
    simp only [h, if_true, Function.iterate_zero, id_eq]
  · refine ⟨(if nbits > 64 then 64 else nbits).toNat, ?_⟩
    simp only [h, if_false]
    exact generate_loop_state _ _ _ _

theorem generate_le_one (st : prng30_state) (nbits : Int) (h : Binary st) :
    Binary (prng30_generate st nbits).1 := by
  obtain ⟨k, hk⟩ := generate_state st nbits
  rw [hk]
  exact iterate_le_one st h k

theorem init_valid_int (seed : Nat) (width : Int) (hw : 1 ≤ width) :
    Valid (prng30_init seed width) := by
  obtain ⟨n, rfl⟩ := Int.eq_ofNat_of_zero_le (show 0 ≤ width by omega)
  exact init_valid seed n (by omega)

theorem init_binary_int (seed : Nat) (width : Int) (hw : 1 ≤ width) :
    Binary (prng30_init seed width) := by
  obtain ⟨n, rfl⟩ := Int.eq_ofNat_of_zero_le (show 0 ≤ width by omega)
  exact init_binary seed n (by omega)

theorem generate_valid (st : prng30_state) (nbits : Int) (h : Valid st) :
    Valid (prng30_generate st nbits).1 := by
  obtain ⟨k, hk⟩ := generate_state st nbits
  rw [hk]
  exact valid_iterate h k

theorem reachable_binary {st : prng30_state} (h : Reachable st) : Binary st := by
  induction h with
  | init seed width hw => exact init_binary_int seed width hw
  | step st _ ih => exact step_le_one st ih
  | generate st nbits _ ih => exact generate_le_one st nbits ih

theorem reachable_valid {st : prng30_state} (h : Reachable st) : Valid st := by
  induction h with
  | init seed width hw => exact init_valid_int seed width hw
  | step st _ ih => exact valid_step ih
  | generate st nbits _ ih => exact generate_valid st nbits ih

theorem le_one_iff (c : Nat) : c ≤ 1 ↔ c = 0 ∨ c = 1 := by omega

/-- C13: every cell of the grid is exactly 0 or 1 in the state returned by
`prng30_init` for every seed and size `>= 1`; `prng30_step` and `prng30_generate`
(for every `nbits`) preserve that; hence it holds in every reachable state. -/
theorem prng30_cells_binary :
    (∀ (seed : Nat) (width : Int), 1 ≤ width →
        ∀ c ∈ (prng30_init seed width).rows, c = 0 ∨ c = 1) ∧
      (∀ st : prng30_state, (∀ c ∈ st.rows, c = 0 ∨ c = 1) →
        ∀ c ∈ (prng30_step st).rows, c = 0 ∨ c = 1) ∧
      (∀ (st : prng30_state) (nbits : Int), (∀ c ∈ st.rows, c = 0 ∨ c = 1) →
        ∀ c ∈ (prng30_generate st nbits).1.rows, c = 0 ∨ c = 1) ∧
      (∀ st : prng30_state, Reachable st → ∀ c ∈ st.rows, c = 0 ∨ c = 1) := by
  refine ⟨?_, ?_, ?_, ?_⟩
  · intro seed width hw c hc
    exact (le_one_iff c).mp (init_binary_int seed width hw c hc)
  · intro st h c hc
    exact (le_one_iff c).mp (step_le_one st (fun d hd => (le_one_iff d).mpr (h d hd)) c hc)
  · intro st nbits h c hc
    exact (le_one_iff c).mp
      (generate_le_one st nbits (fun d hd => (le_one_iff d).mpr (h d hd)) c hc)
  · intro st h c hc
    exact (le_one_iff c).mp (reachable_binary h c hc)

theorem prng30_cells_binary_witness :
    (∀ c ∈ exampleState.rows, c = 0 ∨ c = 1) ∧
      (∀ c ∈ (prng30_step exampleState).rows, c = 0 ∨ c = 1) ∧
      (∀ c ∈ (prng30_generate exampleState 5).1.rows, c = 0 ∨ c = 1) ∧
      (∀ c ∈ (prng30_init 5 3).rows, c = 0 ∨ c = 1) :=
  ⟨by decide, prng30_cells_binary.2.1 exampleState (by decide),
    prng30_cells_binary.2.2.1 exampleState 5 (by decide),
    prng30_cells_binary.1 5 3 (by decide)⟩

theorem index_bound (n r x : Int) (hr0 : 0 ≤ r) (hrn : r < n) (hx0 : 0 ≤ x) (hxn : x < n) :
    0 ≤ r * n + x ∧ r * n + x < n * n := by
  have h1 : 0 ≤ r * n := Int.mul_nonneg hr0 (by omega)
  have h2 : (r + 1) * n ≤ n * n := Int.mul_le_mul_of_nonneg_right (by omega) (by omega)
  have h3 : (r + 1) * n = r * n + n := by ring
  omega

theorem tmod_bound (a n : Int) (ha : 0 ≤ a) (hn : 1 ≤ n) :
    0 ≤ Int.tmod a n ∧ Int.tmod a n < n := by
  rw [Int.tmod_eq_emod ha (by omega)]
  exact ⟨Int.emod_nonneg _ (by omega), Int.emod_lt_of_pos _ (by omega)⟩

theorem iterate_length {st : prng30_state} (h : Valid st) (k : Nat) :
    (prng30_step^[k] st).rows.length = st.rows.length := by
  have h1 := (valid_iterate h k).2.2.2.1
  rw [iterate_size] at h1
  rw [h1, h.2.2.2.1]

/-! ### Sequences of `prng30_generate` calls -/

theorem generate_eq_loop (st : prng30_state) (nbits : Int) :
    prng30_generate st nbits =
      prng30_generate_loop (Int.tdiv st.size 2) (min (max nbits 0) 64).toNat st 0 := by
  unfold prng30_generate
  by_cases h1 : nbits > 64
  · have : (min (max nbits 0) 64).toNat = 64 := by omega
    simp only [h1, if_true, this]
    rw [if_neg (by decide)]
    rfl
  · simp only [h1, if_false]
    by_cases h2 : nbits ≤ 0
    · have : (min (max nbits 0) 64).toNat = 0 := by omega
      rw [if_pos h2, this]
      rfl
    · have : (min (max nbits 0) 64).toNat = nbits.toNat := by omega
      rw [if_neg h2, this]

theorem generate_loop_add (mid : Int) (a b : Nat) (st : prng30_state) (out : Nat) :
    prng30_generate_loop mid (a + b) st out =
      prng30_generate_loop mid b (prng30_generate_loop mid a st out).1
        (prng30_generate_loop mid a st out).2 := by
  induction a generalizing st out with
  | zero =>
    rw [Nat.zero_add]
    rfl
  | succ a ih =>
    have e : a + 1 + b = (a + b) + 1 := by omega
    rw [e]
    simp only [prng30_generate_loop]
    exact ih _ _

/-- C20: sequential calls do not overlap. On a valid state with binary cells, for
`a, b >= 0` with `a + b <= 64`, a request of `a` bits giving `x` followed by a request
of `b` bits giving `y` satisfies `x * 2 ^ b + y =` the value of a single request of
`a + b` bits from the same starting state, and both runs end in the same state. -/
theorem prng30_generate_sequential (st : prng30_state) (a b : Int) (hv : Valid st)
    (hb : Binary st) (ha : 0 ≤ a) (hb0 : 0 ≤ b) (hab : a + b ≤ 64) :
    (prng30_generate st a).2 * 2 ^ b.toNat +
          (prng30_generate (prng30_generate st a).1 b).2 =
        (prng30_generate st (a + b)).2 ∧
      (prng30_generate (prng30_generate st a).1 b).1 = (prng30_generate st (a + b)).1 := by
  obtain ⟨A, rfl⟩ := Int.eq_ofNat_of_zero_le ha
  obtain ⟨B, rfl⟩ := Int.eq_ofNat_of_zero_le hb0
  have hA : (min (max (A : Int) 0) 64).toNat = A := by omega
  have hB : (min (max (B : Int) 0) 64).toNat = B := by omega
  have hAB : (min (max ((A : Int) + (B : Int)) 0) 64).toNat = A + B := by omega
  have hst : (prng30_generate_loop (Int.tdiv st.size 2) A st 0).1 = prng30_step^[A] st :=
    generate_loop_state _ _ _ _
  have hsz : (prng30_step^[A] st).size = st.size := iterate_size st A
  have hx : (prng30_generate_loop (Int.tdiv st.size 2) A st 0).2 < 2 ^ A := by
    have := generate_loop_lt (Int.tdiv st.size 2) A st 0 0 (by decide)
    rwa [Nat.zero_add] at this
  have hv1 := valid_iterate hv A
  have hb1 := binary_iterate hb hv A
  have s1 := generate_loop_sum B (prng30_step^[A] st)
    (prng30_generate_loop (Int.tdiv st.size 2) A st 0).2 A hv1 hb1 hx (by omega)
  have s2 := generate_loop_sum B (prng30_step^[A] st) 0 0 hv1 hb1 (by decide) (by omega)
  rw [hsz] at s1 s2
  rw [generate_eq_loop st (A : Int), generate_eq_loop st ((A : Int) + (B : Int)), hA, hAB,
    hst, generate_eq_loop (prng30_step^[A] st) (B : Int), hB, hsz, Int.toNat_ofNat,
    generate_loop_add, hst]
  refine ⟨?_, ?_⟩
  · rw [s1, s2, Nat.zero_mul, Nat.zero_add]
  · rw [generate_loop_state, generate_loop_state]

theorem prng30_generate_sequential_witness :
    Valid exampleState ∧ Binary exampleState ∧ (0 : Int) ≤ 3 ∧ (0 : Int) ≤ 4 ∧
      (3 : Int) + 4 ≤ 64 ∧
      ((prng30_generate exampleState 3).2 * 2 ^ (4 : Int).toNat +
            (prng30_generate (prng30_generate exampleState 3).1 4).2 =
          (prng30_generate exampleState (3 + 4)).2 ∧
        (prng30_generate (prng30_generate exampleState 3).1 4).1 =
          (prng30_generate exampleState (3 + 4)).1) :=
  ⟨by decide, by decide, by decide, by decide, by decide,
    prng30_generate_sequential exampleState 3 4 (by decide) (by decide) (by decide)
      (by decide) (by decide)⟩

theorem generate_seq_mask (ws : List Int) (st : prng30_state) (hv : Valid st)
    (hb : Binary st) :
    generateSeq st ws = generateSeqMask st.size.toNat (rowMask st) ws := by
  induction ws generalizing st with
  | nil => rfl
  | cons w ws ih =>
    unfold generateSeq generateSeqMask
    have hst : (prng30_generate st w).1 = prng30_step^[(min (max w 0) 64).toNat] st := by
      rw [generate_eq_loop, generate_loop_state]
    have hval : (prng30_generate st w).2 =
        generateMask st.size.toNat (min (max w 0) 64).toNat (rowMask st) 0 := by
      rw [generate_eq_loop, generate_loop_mask _ st 0 hv hb]
    rw [hval, hst, ih _ (valid_iterate hv _) (binary_iterate hb hv _), iterate_size,
      iterate_rowMask hv hb]

/-- C16: with grid size 64 the first 32-bit value generated after `prng30_init 0 64`
is non-zero, and so is the first one after `prng30_init (2 ^ 64 - 1) 64`. -/
theorem prng30_generate_degenerate_64 :
    (prng30_generate (prng30_init 0 64) 32).2 ≠ 0 ∧
      (prng30_generate (prng30_init (2 ^ 64 - 1) 64) 32).2 ≠ 0 := by
  have hmax : prng30_init (2 ^ 64 - 1) 64 = prng30_init 0 64 := rfl
  have hg : goodSize 64 = true := by decide!
  have := (goodSize_sound 64 (by decide) hg).2
  rw [hmax]
  exact ⟨this, this⟩

theorem seq_12345_54321 :
    95 < countDiff (generateSeqMask 64 (initMask 12345 64) (List.replicate 100 32))
      (generateSeqMask 64 (initMask 54321 64) (List.replicate 100 32)) := by
  decide!

/-- C17: of the 100 successive 32-bit values generated from `prng30_init 12345 64` and
from `prng30_init 54321 64`, more than 95 positions differ. -/
theorem prng30_seed_divergence :
    95 < countDiff (generateSeq (prng30_init 12345 64) (List.replicate 100 32))
      (generateSeq (prng30_init 54321 64) (List.replicate 100 32)) := by
  have h1 := generate_seq_mask (List.replicate 100 32) (prng30_init 12345 (64 : Nat))
    (init_valid 12345 64 (by decide)) (init_binary 12345 64 (by decide))
  have h2 := generate_seq_mask (List.replicate 100 32) (prng30_init 54321 (64 : Nat))
    (init_valid 54321 64 (by decide)) (init_binary 54321 64 (by decide))
  rw [init_size, Int.toNat_ofNat, init_rowMask _ _ (by decide)] at h1 h2
  have e : ((64 : Nat) : Int) = 64 := rfl
  rw [e] at h1 h2
  rw [h1, h2]
  exact seq_12345_54321

/-! ### The entropy floor of `prng30_init` -/

theorem count_eq_setCells (width : Int) (rows : List Nat) :
    prng30_init_count width rows = (setCells width rows : Int) := by
  obtain ⟨n, rfl⟩ | h := (le_or_lt 0 width).imp_left Int.eq_ofNat_of_zero_le
  · rw [count_spec]
    unfold setCells
    rw [Int.toNat_ofNat, List.countP_map]
    rfl
  · have : width.toNat = 0 := by omega
    unfold prng30_init_count setCells
    rw [this]
    rfl

theorem seeded_rows (seed : Nat) (width : Int) :
    (prng30_init_seeded seed width).rows =
      if (setCells width (prng30_init_derived seed width) : Int) < Int.tdiv width 5 then
        prng30_init_flip width (prng30_init_derived seed width)
      else prng30_init_derived seed width := by
  unfold prng30_init_seeded
  simp only [count_eq_setCells]
  rfl

theorem derived_spec (seed n : Nat) :
    (prng30_init_derived seed (n : Int)).length = n * n ∧
      ∀ idx, (prng30_init_derived seed (n : Int)).getD idx 0 =
        if idx < n then deriveBit (prng30_init_seed seed) idx else 0 :=
  derive_spec (prng30_init_seed seed) n

/-- C11 at seed `0xFFF`, width 64: the derived first row has 12 set cells, fewer than
20% of the 64 columns (`5 * 12 < 64`), so the entropy floor is due and would flip
column 0 to `0`; yet `prng30_init` flips nothing and leaves the row as derived
(column 0 keeps its `1`), because `set_bits < width / 5` compares the count with the
truncated `64 / 5 = 12`. -/
theorem prng30_entropy_floor_threshold :
    setCells 64 (prng30_init_derived 0xFFF 64) = 12 ∧ 5 * 12 < 64 ∧
      Int.tdiv 64 5 = 12 ∧
      (prng30_init_seeded 0xFFF 64).rows = prng30_init_derived 0xFFF 64 ∧
      rd (prng30_init_derived 0xFFF 64) 0 = 1 ∧
      rd (prng30_init_flip 64 (prng30_init_derived 0xFFF 64)) 0 = 0 ∧
      rd (prng30_init_seeded 0xFFF 64).rows 0 = 1 := by
  have hc : setCells 64 (prng30_init_derived 0xFFF 64) = 12 := by decide
  have hr : (prng30_init_seeded 0xFFF 64).rows = prng30_init_derived 0xFFF 64 := by
    rw [seeded_rows, hc]
    rfl
  refine ⟨hc, by decide, by decide, hr, by decide, by decide, ?_⟩
  rw [hr]
  decide

/-- C19 at seed `0x8102040810204081`, width 64: the derived first row has its 10 set
cells exactly at the columns 0, 7, ..., 63, the floor triggers (`10 < 64 / 5`), and
the flip clears all of them: the first row goes from 10 set cells to none, and the
seeded row is all-zero. -/
theorem prng30_entropy_floor_clears :
    setCells 64 (prng30_init_derived 0x8102040810204081 64) = 10 ∧
      (10 : Int) < Int.tdiv 64 5 ∧
      (prng30_init_seeded 0x8102040810204081 64).rows =
        prng30_init_flip 64 (prng30_init_derived 0x8102040810204081 64) ∧
      setCells 64 (prng30_init_seeded 0x8102040810204081 64).rows = 0 ∧
      rowAllZero (prng30_init_seeded 0x8102040810204081 64) := by
  have hc : setCells 64 (prng30_init_derived 0x8102040810204081 64) = 10 := by decide
  have hr : (prng30_init_seeded 0x8102040810204081 64).rows =
      prng30_init_flip 64 (prng30_init_derived 0x8102040810204081 64) := by
    rw [seeded_rows, hc]
    rfl
  exact ⟨hc, by decide, hr, by decide, by decide⟩

/-! ### The all-zero attractor -/

theorem rule30Mask_bit (n x j : Nat) (hn : 1 ≤ n) (hx : x < 2 ^ n) (hj : j < n) :
    (rule30Mask n x).testBit j =
      xor (x.testBit ((j + n - 1) % n)) (x.testBit j || x.testBit ((j + 1) % n)) := by
  rw [rule30Mask_testBit n x j hn hx]
  simp [hj]

theorem testBit_descend (x : Nat) (n : Nat)
    (down : ∀ j, 1 ≤ j → j < n → x.testBit j = true → x.testBit (j - 1) = true)
    (i : Nat) (hi : i < n) (ht : x.testBit i = true) (d : Nat) (hd : d ≤ i) :
    x.testBit (i - d) = true := by
  induction d with
  | zero => exact ht
  | succ d ih =>
    have h1 := ih (by omega)
    have h2 := down (i - d) (by omega) (by omega) h1
    have e : i - d - 1 = i - (d + 1) := by omega
    rwa [e] at h2

/-- A row that Rule 30 sends to the all-zero row is all-zero or all-ones. -/
theorem rule30Mask_eq_zero (n x : Nat) (hn : 1 ≤ n) (hx : x < 2 ^ n)
    (h : rule30Mask n x = 0) : x = 0 ∨ x = 2 ^ n - 1 := by
  by_cases hx0 : x = 0
  · exact Or.inl hx0
  · right
    have hb : ∀ j, j < n →
        x.testBit ((j + n - 1) % n) = (x.testBit j || x.testBit ((j + 1) % n)) := by
      intro j hj
      have := rule30Mask_bit n x j hn hx hj
      rw [h, Nat.zero_testBit] at this
      revert this
      generalize x.testBit ((j + n - 1) % n) = a
      generalize x.testBit j = b
      generalize x.testBit ((j + 1) % n) = c
      cases a <;> cases b <;> cases c <;> simp
    have down : ∀ j, 1 ≤ j → j < n → x.testBit j = true → x.testBit (j - 1) = true := by
      intro j h1 hjn ht
      have e : (j + n - 1) % n = j - 1 := by
        have : j + n - 1 = (j - 1) + n := by omega
        rw [this, Nat.add_mod_right]
        exact Nat.mod_eq_of_lt (by omega)
      have := hb j hjn
      rw [e, ht] at this
      simpa using this
    obtain ⟨i, hi⟩ := Nat.ne_zero_implies_bit_true hx0
    have hin : i < n := by
      by_contra hc
      rw [testBit_ge_of_lt hx (by omega)] at hi
      exact Bool.noConfusion hi
    have h0 : x.testBit 0 = true := by
      have := testBit_descend x n down i hin hi i (Nat.le_refl i)
      rwa [Nat.sub_self] at this
    have hlast : x.testBit (n - 1) = true := by
      have := hb 0 (by omega)
      have e : (0 + n - 1) % n = n - 1 := by
        rw [Nat.zero_add]
        exact Nat.mod_eq_of_lt (by omega)
      rw [e, h0] at this
      simpa using this
    apply Nat.eq_of_testBit_eq
    intro j
    rw [Nat.testBit_two_pow_sub_one]
    by_cases hj : j < n
    · have := testBit_descend x n down (n - 1) (by omega) hlast (n - 1 - j) (by omega)
      have e : n - 1 - (n - 1 - j) = j := by omega
      rw [e] at this
      rw [this]
      simp [hj]
    · rw [testBit_ge_of_lt hx (by omega)]
      simp [hj]

/-- Only on a ring whose size is a multiple of 3 can Rule 30 produce the all-ones
row. -/
theorem rule30Mask_eq_ones (n x : Nat) (hn : 1 ≤ n) (hx : x < 2 ^ n)
    (h : rule30Mask n x = 2 ^ n - 1) : n % 3 = 0 := by
  have hb : ∀ j, j < n →
      x.testBit ((j + n - 1) % n) = !(x.testBit j || x.testBit ((j + 1) % n)) := by
    intro j hj
    have := rule30Mask_bit n x j hn hx hj
    rw [h, Nat.testBit_two_pow_sub_one] at this
    simp only [hj, decide_True] at this
    revert this
    generalize x.testBit ((j + n - 1) % n) = a
    generalize x.testBit j = b
    generalize x.testBit ((j + 1) % n) = c
    cases a <;> cases b <;> cases c <;> simp
  have hc : ∀ j, x.testBit (j % n) =
      !(x.testBit ((j + 1) % n) || x.testBit ((j + 2) % n)) := by
    intro j
    have := hb ((j + 1) % n) (Nat.mod_lt _ (by omega))
    have e1 : ((j + 1) % n + n - 1) % n = j % n := by
      have : (j + 1) % n + n - 1 = (j + 1) % n + (n - 1) := by omega
      rw [this, Nat.mod_add_mod]
      have : j + 1 + (n - 1) = j + n := by omega
      rw [this, Nat.add_mod_right]
    have e2 : ((j + 1) % n + 1) % n = (j + 2) % n := by
      rw [Nat.mod_add_mod]
    rw [e1, e2] at this
    exact this
  have hper : ∀ j, x.testBit ((j + n) % n) = x.testBit (j % n) := by
    intro j
    rw [Nat.add_mod_right]
  have step3 : ∀ a, x.testBit (a % n) = true →
      x.testBit ((a + 1) % n) = false ∧ x.testBit ((a + 2) % n) = false ∧
        x.testBit ((a + 3) % n) = true := by
    intro a ha
    have h1 := hc a
    have h2 := hc (a + 1)
    rw [ha] at h1
    have e : a + 1 + 1 = a + 2 := by omega
    have e' : a + 1 + 2 = a + 3 := by omega
    rw [e, e'] at h2
    revert h1 h2
    generalize x.testBit ((a + 1) % n) = p
    generalize x.testBit ((a + 2) % n) = q
    generalize x.testBit ((a + 3) % n) = r
    cases p <;> cases q <;> cases r <;> simp
  have ex : ∃ a, x.testBit (a % n) = true := by
    by_cases h0 : x.testBit (0 % n) = true
    · exact ⟨0, h0⟩
    · have h1 := hc 0
      by_cases h1' : x.testBit ((0 + 1) % n) = true
      · exact ⟨0 + 1, h1'⟩
      · by_cases h2' : x.testBit ((0 + 2) % n) = true
        · exact ⟨0 + 2, h2'⟩
        · rw [Bool.not_eq_true] at h0 h1' h2'
          rw [h0, h1', h2'] at h1
          exact Bool.noConfusion h1
  obtain ⟨a, ha⟩ := ex
  have iter : ∀ q, x.testBit ((a + 3 * q) % n) = true := by
    intro q
    induction q with
    | zero => exact ha
    | succ q ih =>
      have := (step3 _ ih).2.2
      have e : a + 3 * q + 3 = a + 3 * (q + 1) := by omega
      rwa [e] at this
  have hq := iter (n / 3)
  have hs := step3 _ hq
  have hmod : n % 3 = 0 ∨ n % 3 = 1 ∨ n % 3 = 2 := by omega
  rcases hmod with h0 | h1 | h2
  · exact h0
  · have e : a + 3 * (n / 3) + 1 = a + n := by omega
    have := hs.1
    rw [e, hper, ha] at this
    exact Bool.noConfusion this
  · have e : a + 3 * (n / 3) + 2 = a + n := by omega
    have := hs.2.1
    rw [e, hper, ha] at this
    exact Bool.noConfusion this

theorem rule30Mask_zero (n : Nat) : rule30Mask n 0 = 0 := by
  simp [rule30Mask]

theorem rule30Mask_ones (n : Nat) (hn : 1 ≤ n) : rule30Mask n (2 ^ n - 1) = 0 := by
  have hx : 2 ^ n - 1 < 2 ^ n := by
    have := Nat.two_pow_pos n
    omega
  apply Nat.eq_of_testBit_eq
  intro j
  rw [rule30Mask_testBit n _ j hn hx, Nat.zero_testBit]
  by_cases hj : j < n
  · have hm1 : (j + n - 1) % n < n := Nat.mod_lt _ (by omega)
    have hm2 : (j + 1) % n < n := Nat.mod_lt _ (by omega)
    simp [Nat.testBit_two_pow_sub_one, hj, hm1, hm2]
  · simp [hj]

theorem iterate_mask_zero (n k : Nat) : (rule30Mask n)^[k] 0 = 0 := by
  induction k with
  | zero => rfl
  | succ k ih => rw [Function.iterate_succ_apply, rule30Mask_zero, ih]

/-- On a ring whose size is not a multiple of 3, only the all-zero and the all-ones
rows are driven to the all-zero row by one or more Rule 30 generations. -/
theorem iterate_mask_eq_zero (n : Nat) (hn : 1 ≤ n) (h3 : n % 3 ≠ 0) (k : Nat) (x : Nat)
    (hx : x < 2 ^ n) (h : (rule30Mask n)^[k + 1] x = 0) : x = 0 ∨ x = 2 ^ n - 1 := by
  induction k generalizing x with
  | zero => exact rule30Mask_eq_zero n x hn hx h
  | succ k ih =>
    rw [Function.iterate_succ_apply] at h
    rcases ih (rule30Mask n x) (rule30Mask_lt n x hn hx) h with h1 | h1
    · exact rule30Mask_eq_zero n x hn hx h1
    · exact absurd (rule30Mask_eq_ones n x hn hx h1) h3

theorem encode_zero_cells (l : List Nat) (h : encode l = 0) : ∀ c ∈ l, c % 2 = 0 := by
  induction l with
  | nil => intro c hc; cases hc
  | cons a as ih =>
    simp only [encode] at h
    intro c hc
    rcases List.mem_cons.mp hc with h1 | h1
    · rw [h1]; omega
    · exact ih (by omega) c h1

theorem encode_ones_cells (l : List Nat) (h : encode l = 2 ^ l.length - 1) :
    ∀ c ∈ l, c % 2 = 1 := by
  induction l with
  | nil => intro c hc; cases hc
  | cons a as ih =>
    simp only [encode, List.length_cons, Nat.pow_succ] at h
    have hlt := encode_lt as
    have hpos := Nat.two_pow_pos as.length
    intro c hc
    rcases List.mem_cons.mp hc with h1 | h1
    · rw [h1]; omega
    · exact ih (by omega) c h1

theorem encode_of_ones (l : List Nat) (h : ∀ c ∈ l, c = 1) : encode l = 2 ^ l.length - 1 := by
  induction l with
  | nil => rfl
  | cons a as ih =>
    have ha : a = 1 := h a (List.mem_cons_self _ _)
    have := ih (fun d hd => h d (List.mem_cons_of_mem _ hd))
    have hpos := Nat.two_pow_pos as.length
    simp only [encode, List.length_cons, Nat.pow_succ, this, ha]
    omega

theorem currentRow_le_one {st : prng30_state} (hb : Binary st) :
    ∀ c ∈ currentRow st, c ≤ 1 := by
  intro c hc
  unfold currentRow at hc
  obtain ⟨j, _, rfl⟩ := List.mem_map.mp hc
  exact binary_cell hb _ _

theorem rowAllZero_iff_mask {st : prng30_state} (hb : Binary st) :
    rowAllZero st ↔ rowMask st = 0 := by
  refine ⟨rowMask_eq_zero, fun h c hc => ?_⟩
  have h1 := encode_zero_cells _ h c hc
  have h2 := currentRow_le_one hb c hc
  omega

theorem rowAllOnes_iff_mask {st : prng30_state} (hb : Binary st) :
    (∀ c ∈ currentRow st, c = 1) ↔ rowMask st = 2 ^ st.size.toNat - 1 := by
  rw [← currentRow_length]
  refine ⟨encode_of_ones _, fun h c hc => ?_⟩
  have h1 := encode_ones_cells _ h c hc
  have h2 := currentRow_le_one hb c hc
  omega

/-- The current row of `prng30_init seed n` is all-zero exactly when the first row
after the entropy floor is all-zero or all-ones, on a ring whose size is not a
multiple of 3. -/
theorem init_allZero_iff (seed n : Nat) (hn : 1 ≤ n) (h3 : n % 3 ≠ 0) :
    rowAllZero (prng30_init seed (n : Int)) ↔
      (rowAllZero (prng30_init_seeded seed (n : Int)) ∨
        ∀ c ∈ currentRow (prng30_init_seeded seed (n : Int)), c = 1) := by
  have hv := seeded_valid seed n hn
  have hb := seeded_binary seed n
  have hsz : (prng30_init_seeded seed (n : Int)).size.toNat = n := by
    rw [(seeded_spec seed n).1, Int.toNat_ofNat]
  have hlt : rowMask (prng30_init_seeded seed (n : Int)) < 2 ^ n :=
    rowMask_lt _ n (seeded_spec seed n).1
  rw [rowAllZero_iff_mask (init_binary seed n hn), rowAllZero_iff_mask hb,
    rowAllOnes_iff_mask hb, hsz, init_eq_iterate, iterate_rowMask hv hb, hsz]
  have hw : ∃ k, (if n > 128 then 50 else 30) = k + 1 := by
    by_cases h : n > 128
    · exact ⟨49, by simp [h]⟩
    · exact ⟨29, by simp [h]⟩
  obtain ⟨k, hk⟩ := hw
  rw [hk]
  constructor
  · exact iterate_mask_eq_zero n hn h3 k _ hlt
  · rintro (h | h)
    · rw [h, iterate_mask_zero]
    · rw [Function.iterate_succ_apply, h, rule30Mask_ones n hn, iterate_mask_zero]

theorem attractor_masks :
    initMask 0xFFFFFFFF 32 = 0 ∧ initMask 0x49249249 33 = 0 ∧
      initMask 0x8102040810204081 64 = 0 := by
  decide!

/-- C18 as stated fails: for the seed `0xFFFFFFFF` at size 32 (first row all-ones),
for the seed `0x49249249` at size 33 (first row `100100...`) and for the seed
`0x8102040810204081` at size 64 (first row cleared by the entropy floor), the
current row of the state returned by `prng30_init` is all-zero. -/
theorem prng30_init_attractor_counterexample :
    rowAllZero (prng30_init 0xFFFFFFFF 32) ∧ rowAllZero (prng30_init 0x49249249 33) ∧
      rowAllZero (prng30_init 0x8102040810204081 64) := by
  obtain ⟨h1, h2, h3⟩ := attractor_masks
  have e1 := (rowAllZero_iff_mask (init_binary 0xFFFFFFFF 32 (by decide))).mpr
    (by rw [init_rowMask _ _ (by decide)]; exact h1)
  have e2 := (rowAllZero_iff_mask (init_binary 0x49249249 33 (by decide))).mpr
    (by rw [init_rowMask _ _ (by decide)]; exact h2)
  have e3 := (rowAllZero_iff_mask (init_binary 0x8102040810204081 64 (by decide))).mpr
    (by rw [init_rowMask _ _ (by decide)]; exact h3)
  exact ⟨e1, e2, e3⟩

/-- C18, amended: for every seed and every size from 32 to 256 that is not a
multiple of 3, the current row of the state returned by `prng30_init` is all-zero
exactly when the first row after the entropy floor is all-zero or all-ones; so it
contains a set cell whenever that first row has both a set and a clear cell. -/
theorem prng30_init_attractor (seed : Nat) (n : Int) (h32 : 32 ≤ n) (h256 : n ≤ 256)
    (h3 : n % 3 ≠ 0) :
    (rowAllZero (prng30_init seed n) ↔
        (rowAllZero (prng30_init_seeded seed n) ∨
          ∀ c ∈ currentRow (prng30_init_seeded seed n), c = 1)) ∧
      ((∃ c ∈ currentRow (prng30_init_seeded seed n), c ≠ 0) →
        (∃ c ∈ currentRow (prng30_init_seeded seed n), c = 0) →
        ∃ c ∈ currentRow (prng30_init seed n), c ≠ 0) := by
  obtain ⟨m, rfl⟩ := Int.eq_ofNat_of_zero_le (show 0 ≤ n by omega)
  have hm3 : m % 3 ≠ 0 := by omega
  have hiff := init_allZero_iff seed m (by omega) hm3
  refine ⟨hiff, ?_⟩
  rintro ⟨c, hc, hc0⟩ ⟨d, hd, hd0⟩
  by_contra hne
  have hz : rowAllZero (prng30_init seed (m : Int)) := by
    intro e he
    by_contra h
    exact hne ⟨e, he, h⟩
  rcases hiff.mp hz with h | h
  · exact hc0 (h c hc)
  · have := h d hd
    omega

theorem prng30_init_attractor_witness :
    (32 : Int) ≤ 64 ∧ (64 : Int) ≤ 256 ∧ (64 : Int) % 3 ≠ 0 ∧
      ((rowAllZero (prng30_init 12345 64) ↔
          (rowAllZero (prng30_init_seeded 12345 64) ∨
            ∀ c ∈ currentRow (prng30_init_seeded 12345 64), c = 1)) ∧
        ((∃ c ∈ currentRow (prng30_init_seeded 12345 64), c ≠ 0) →
          (∃ c ∈ currentRow (prng30_init_seeded 12345 64), c = 0) →
          ∃ c ∈ currentRow (prng30_init 12345 64), c ≠ 0)) :=
  ⟨by decide, by decide, by decide,
    prng30_init_attractor 12345 64 (by decide) (by decide) (by decide)⟩

/-! ### The rule itself, and the standalone program `rule_30.c` -/

/-- C21: the helper `rule30` is Wolfram's Rule 30: on bits `l, m, r` it returns bit
number `4 * l + 2 * m + r` of the integer 30, i.e. the neighbourhoods
111, 110, 101, 100, 011, 010, 001, 000 map to 0, 0, 0, 1, 1, 1, 1, 0. -/
theorem rule30_wolfram (l m r : Nat) (hl : l ≤ 1) (hm : m ≤ 1) (hr : r ≤ 1) :
    rule30 l m r = 30 / 2 ^ (4 * l + 2 * m + r) % 2 ∧
      rule30 1 1 1 = 0 ∧ rule30 1 1 0 = 0 ∧ rule30 1 0 1 = 0 ∧ rule30 1 0 0 = 1 ∧
      rule30 0 1 1 = 1 ∧ rule30 0 1 0 = 1 ∧ rule30 0 0 1 = 1 ∧ rule30 0 0 0 = 0 := by
  refine ⟨?_, by decide, by decide, by decide, by decide, by decide, by decide, by decide,
    by decide⟩
  interval_cases l <;> interval_cases m <;> interval_cases r <;> decide

theorem rule30_wolfram_witness :
    (1 : Nat) ≤ 1 ∧ (0 : Nat) ≤ 1 ∧ (0 : Nat) ≤ 1 ∧
      (rule30 1 0 0 = 30 / 2 ^ (4 * 1 + 2 * 0 + 0) % 2 ∧
        rule30 1 1 1 = 0 ∧ rule30 1 1 0 = 0 ∧ rule30 1 0 1 = 0 ∧ rule30 1 0 0 = 1 ∧
        rule30 0 1 1 = 1 ∧ rule30 0 1 0 = 1 ∧ rule30 0 0 1 = 1 ∧ rule30 0 0 0 = 0) :=
  ⟨by decide, by decide, by decide, rule30_wolfram 1 0 0 (by decide) (by decide) (by decide)⟩

/-- C22 at the grid of `run_ca` for `bits2 = 4`, seed 6 (row 0 = `0, 1, 1, 0`), `row = 0`:
`create_next_iteration` writes `1, 0, 0, 1` into row 1, whereas Rule 30
(`left XOR (mid OR right)`) gives `1, 1, 0, 1`, which is also the next row
`prng30_step` computes from the same row. The code computes `left XOR mid XOR right`. -/
theorem create_next_iteration_not_rule30 :
    gridRow exampleGrid 4 0 = [0, 1, 1, 0] ∧
      gridRow (create_next_iteration exampleGrid 4 0) 4 1 = [1, 0, 0, 1] ∧
      specNextRow [0, 1, 1, 0] = [1, 1, 0, 1] ∧
      currentRow exampleState4 = [0, 1, 1, 0] ∧
      currentRow (prng30_step exampleState4) = [1, 1, 0, 1] := by
  decide

/-! ### The current row as a list -/

theorem specNextRow_length (row : List Nat) : (specNextRow row).length = row.length := by
  simp [specNextRow]

theorem specNextRow_getD (row : List Nat) (j : Nat) :
    (specNextRow row).getD j 0 =
      if j < row.length then
        row.getD ((j + row.length - 1) % row.length) 0 ^^^
          (row.getD j 0 ||| row.getD ((j + 1) % row.length) 0)
      else 0 :=
  map_range_getD _ _ _

/-- On a valid state `prng30_step` makes the Rule 30 successor of the current row the
new current row. -/
theorem step_currentRow {st : prng30_state} (hv : Valid st) :
    currentRow (prng30_step st) = specNextRow (currentRow st) := by
  obtain ⟨n, r, hs, hr, hn, hrn, hlen⟩ := valid_nat hv
  have hcells := hv.2.2.2.2
  have hs1 : (prng30_step st).size = (n : Int) := by rw [step_size, hs]
  have hr1 : (prng30_step st).current_row = (((r + 1) % n : Nat) : Int) := by
    rw [step_nat st n r hs hr]
  have hl : (currentRow st).length = n := by rw [currentRow_length, hs, Int.toNat_ofNat]
  apply ext_getD
  · rw [specNextRow_length, currentRow_length, currentRow_length, step_size]
  · intro i
    rw [currentRow_getD _ n _ hs1 hr1, specNextRow_getD, hl]
    by_cases hi : i < n
    · have hm1 : (i + n - 1) % n < n := Nat.mod_lt _ (by omega)
      have hm2 : (i + 1) % n < n := Nat.mod_lt _ (by omega)
      rw [if_pos hi, if_pos hi, step_cell_nat st n r hs hr hn hrn hlen _ _ hi, if_pos rfl,
        currentRow_getD st n r hs hr, currentRow_getD st n r hs hr,
        currentRow_getD st n r hs hr, if_pos hm1, if_pos hi, if_pos hm2]
      unfold stepVal
      exact rule30_u8 _ _ _ (getD_lt_of_forall _ _ hcells (by decide) _)
        (getD_lt_of_forall _ _ hcells (by decide) _)
        (getD_lt_of_forall _ _ hcells (by decide) _)
    · rw [if_neg hi, if_neg hi]

theorem iterate_currentRow {st : prng30_state} (hv : Valid st) (k : Nat) :
    currentRow (prng30_step^[k] st) = specNextRow^[k] (currentRow st) := by
  induction k with
  | zero => rfl
  | succ k ih =>
    rw [Function.iterate_succ_apply', Function.iterate_succ_apply',
      step_currentRow (valid_iterate hv k), ih]

/-- The bit computed in the loop body of `prng30_generate`, read from the current row
as a list. -/
theorem code_bit_row {st : prng30_state} (hv : Valid st) :
    ((rd st.rows (st.current_row * st.size + Int.tdiv st.size 2) ^^^
        (rd st.rows
            (st.current_row * st.size +
              Int.tmod (Int.tdiv st.size 2 - 1 + st.size) st.size) &&&
          rd st.rows
            (st.current_row * st.size + Int.tmod (Int.tdiv st.size 2 + 1) st.size))) % 256) &&&
      1 = rowBit (currentRow st) := by
  obtain ⟨n, r, hs, hr, hn, hrn, hlen⟩ := valid_nat hv
  have hl : (currentRow st).length = n := by rw [currentRow_length, hs, Int.toNat_ofNat]
  have hmid : Int.tdiv st.size 2 = ((n / 2 : Nat) : Int) := by
    rw [hs, Int.tdiv_eq_ediv (by omega) (by decide)]; norm_cast
  have e1 : Int.tmod (((n / 2 : Nat) : Int) - 1 + (n : Int)) (n : Int) =
      (((n / 2 + n - 1) % n : Nat) : Int) := by
    have : (((n / 2 : Nat) : Int) - 1 + (n : Int)) = ((n / 2 + n - 1 : Nat) : Int) := by omega
    rw [this, ← Int.ofNat_tmod]
  have e2 : Int.tmod (((n / 2 : Nat) : Int) + 1) (n : Int) =
      (((n / 2 + 1) % n : Nat) : Int) := by
    have : (((n / 2 : Nat) : Int) + 1) = ((n / 2 + 1 : Nat) : Int) := by omega
    rw [this, ← Int.ofNat_tmod]
  have hm0 : n / 2 < n := by omega
  have hm1 : (n / 2 + n - 1) % n < n := Nat.mod_lt _ (by omega)
  have hm2 : (n / 2 + 1) % n < n := Nat.mod_lt _ (by omega)
  have hc : ∀ j : Nat, rd st.rows (st.current_row * st.size + (j : Int)) =
      st.rows.getD (r * n + j) 0 := fun j => by
    have := cell_nat st n hs r j
    unfold cell at this
    rw [hr]
    exact this
  unfold rowBit
  rw [hmid, hs, e1, e2, ← hs, hc, hc, hc, hl, currentRow_getD st n r hs hr,
    currentRow_getD st n r hs hr, currentRow_getD st n r hs hr, if_pos hm0, if_pos hm1,
    if_pos hm2]

/-- The loop of `prng30_generate` computes, on a valid state, what `rowGenerate`
computes on its current row: same value, and the same final current row. -/
theorem generate_loop_row (k : Nat) (st : prng30_state) (out : Nat) (hv : Valid st) :
    (prng30_generate_loop (Int.tdiv st.size 2) k st out).2 =
        (rowGenerate k (currentRow st) out).2 ∧
      currentRow (prng30_generate_loop (Int.tdiv st.size 2) k st out).1 =
        (rowGenerate k (currentRow st) out).1 := by
  induction k generalizing st out with
  | zero => exact ⟨rfl, rfl⟩
  | succ k ih =>
    have hv1 := valid_step hv
    have hbit := code_bit_row hv1
    simp only [prng30_generate_loop, rowGenerate]
    simp only [step_size] at hbit ⊢
    rw [hbit, step_currentRow hv]
    have := ih (prng30_step st) (out <<< 1 % 2 ^ 64 ||| rowBit (specNextRow (currentRow st))) hv1
    rw [step_size, step_currentRow hv] at this
    exact this

theorem generate_row (st : prng30_state) (nbits : Int) (hv : Valid st) :
    (prng30_generate st nbits).2 =
        (rowGenerate (min (max nbits 0) 64).toNat (currentRow st) 0).2 ∧
      currentRow (prng30_generate st nbits).1 =
        (rowGenerate (min (max nbits 0) 64).toNat (currentRow st) 0).1 := by
  rw [generate_eq_loop]
  exact generate_loop_row _ st 0 hv

/-- C24: the output depends only on the width and the contents of the current row.
For two valid states of the same size whose current rows are cell-wise equal
(whatever their `current_row` indices and the other rows), `prng30_generate`
returns the same value for every `nbits`, and the two resulting current rows are
again cell-wise equal. -/
theorem prng30_generate_row_only (s1 s2 : prng30_state) (nbits : Int) (h1 : Valid s1)
    (h2 : Valid s2) (hsize : s1.size = s2.size) (hrow : currentRow s1 = currentRow s2) :
    (prng30_generate s1 nbits).2 = (prng30_generate s2 nbits).2 ∧
      (prng30_generate s1 nbits).1.size = (prng30_generate s2 nbits).1.size ∧
      currentRow (prng30_generate s1 nbits).1 = currentRow (prng30_generate s2 nbits).1 := by
  obtain ⟨a1, a2⟩ := generate_row s1 nbits h1
  obtain ⟨b1, b2⟩ := generate_row s2 nbits h2
  obtain ⟨k1, hk1⟩ := generate_state s1 nbits
  obtain ⟨k2, hk2⟩ := generate_state s2 nbits
  refine ⟨?_, ?_, ?_⟩
  · rw [a1, b1, hrow]
  · rw [hk1, hk2, iterate_size, iterate_size, hsize]
  · rw [a2, b2, hrow]

theorem prng30_generate_row_only_witness :
    Valid exampleState ∧ Valid exampleState2 ∧ exampleState.size = exampleState2.size ∧
      currentRow exampleState = currentRow exampleState2 ∧
      ((prng30_generate exampleState 5).2 = (prng30_generate exampleState2 5).2 ∧
        (prng30_generate exampleState 5).1.size = (prng30_generate exampleState2 5).1.size ∧
        currentRow (prng30_generate exampleState 5).1 =
          currentRow (prng30_generate exampleState2 5).1) :=
  ⟨by decide, by decide, by decide, by decide,
    prng30_generate_row_only exampleState exampleState2 5 (by decide) (by decide) (by decide)
      (by decide)⟩

/-! ### The all-zero row and rotations -/

theorem getD_of_all_zero (row : List Nat) (h : ∀ c ∈ row, c = 0) (j : Nat) :
    row.getD j 0 = 0 := by
  by_cases hj : j < row.length
  · rw [List.getD_eq_getElem _ _ hj]
    exact h _ (List.getElem_mem _)
  · rw [List.getD_eq_default _ _ (by omega)]

theorem specNextRow_zero (row : List Nat) (h : ∀ c ∈ row, c = 0) :
    ∀ c ∈ specNextRow row, c = 0 := by
  intro c hc
  unfold specNextRow at hc
  obtain ⟨j, _, rfl⟩ := List.mem_map.mp hc
  rw [getD_of_all_zero row h, getD_of_all_zero row h, getD_of_all_zero row h]
  rfl

theorem rowBit_zero (row : List Nat) (h : ∀ c ∈ row, c = 0) : rowBit row = 0 := by
  unfold rowBit
  rw [getD_of_all_zero row h, getD_of_all_zero row h, getD_of_all_zero row h]
  rfl

theorem rowGenerate_zero (k : Nat) (row : List Nat) (h : ∀ c ∈ row, c = 0) :
    (rowGenerate k row 0).2 = 0 ∧ ∀ c ∈ (rowGenerate k row 0).1, c = 0 := by
  induction k generalizing row with
  | zero => exact ⟨rfl, h⟩
  | succ k ih =>
    have h1 := specNextRow_zero row h
    simp only [rowGenerate]
    rw [rowBit_zero _ h1]
    exact ih _ h1

theorem generate_zero (st : prng30_state) (nbits : Int) (hv : Valid st)
    (hz : rowAllZero st) :
    (prng30_generate st nbits).2 = 0 ∧ rowAllZero (prng30_generate st nbits).1 := by
  obtain ⟨a1, a2⟩ := generate_row st nbits hv
  obtain ⟨z1, z2⟩ := rowGenerate_zero (min (max nbits 0) 64).toNat (currentRow st) hz
  refine ⟨by rw [a1, z1], ?_⟩
  unfold rowAllZero
  rw [a2]
  exact z2

theorem generateSeq_zero (ws : List Int) (st : prng30_state) (hv : Valid st)
    (hz : rowAllZero st) : ∀ v ∈ generateSeq st ws, v = 0 := by
  induction ws generalizing st with
  | nil =>
    intro v hv0
    simp [generateSeq] at hv0
  | cons w ws ih =>
    obtain ⟨g1, g2⟩ := generate_zero st w hv hz
    intro v hmem
    simp only [generateSeq, List.mem_cons] at hmem
    rcases hmem with h | h
    · rw [h, g1]
    · exact ih _ (generate_valid st w hv) g2 v h

theorem step_zero (st : prng30_state) (hv : Valid st) (hz : rowAllZero st) :
    rowAllZero (prng30_step st) := by
  unfold rowAllZero
  rw [step_currentRow hv]
  exact specNextRow_zero _ hz

/-- C23: the all-zero row is absorbing. On a valid state whose current row is
all-zero, `prng30_step` produces an all-zero next row, and every `prng30_generate`
call from then on, for every `nbits` and any number of calls, returns 0. -/
theorem prng30_zero_absorbing (st : prng30_state) (hv : Valid st) (hz : rowAllZero st) :
    rowAllZero (prng30_step st) ∧
      (∀ nbits : Int, (prng30_generate (prng30_step st) nbits).2 = 0 ∧
        rowAllZero (prng30_generate (prng30_step st) nbits).1) ∧
      (∀ ws : List Int, ∀ v ∈ generateSeq (prng30_step st) ws, v = 0) ∧
      (∀ ws : List Int, ∀ v ∈ generateSeq st ws, v = 0) := by
  have hz1 := step_zero st hv hz
  have hv1 := valid_step hv
  exact ⟨hz1, fun nbits => generate_zero _ nbits hv1 hz1,
    fun ws => generateSeq_zero ws _ hv1 hz1, fun ws => generateSeq_zero ws st hv hz⟩

theorem prng30_zero_absorbing_witness :
    Valid exampleStateZero ∧ rowAllZero exampleStateZero ∧
      (rowAllZero (prng30_step exampleStateZero) ∧
        (∀ nbits : Int, (prng30_generate (prng30_step exampleStateZero) nbits).2 = 0 ∧
          rowAllZero (prng30_generate (prng30_step exampleStateZero) nbits).1) ∧
        (∀ ws : List Int, ∀ v ∈ generateSeq (prng30_step exampleStateZero) ws, v = 0) ∧
        (∀ ws : List Int, ∀ v ∈ generateSeq exampleStateZero ws, v = 0)) :=
  ⟨by decide, by decide, prng30_zero_absorbing exampleStateZero (by decide) (by decide)⟩

theorem rotate_getD (l : List Nat) (k j : Nat) (hj : j < l.length) :
    (l.rotate k).getD j 0 = l.getD ((j + k) % l.length) 0 := by
  have h1 : j < (l.rotate k).length := by rw [List.length_rotate]; exact hj
  have h2 : (j + k) % l.length < l.length := Nat.mod_lt _ (by omega)
  rw [List.getD_eq_getElem _ _ h1, List.getD_eq_getElem _ _ h2, List.getElem_rotate]

/-- Rule 30 on a circular row commutes with rotating the row. -/
theorem specNextRow_rotate (l : List Nat) (k : Nat) :
    specNextRow (l.rotate k) = (specNextRow l).rotate k := by
  apply ext_getD
  · rw [specNextRow_length, List.length_rotate, List.length_rotate, specNextRow_length]
  · intro i
    rw [specNextRow_getD, List.length_rotate]
    by_cases hi : i < l.length
    · have hn : 1 ≤ l.length := by omega
      have hm1 : (i + l.length - 1) % l.length < l.length := Nat.mod_lt _ (by omega)
      have hm2 : (i + 1) % l.length < l.length := Nat.mod_lt _ (by omega)
      have hm3 : (i + k) % l.length < l.length := Nat.mod_lt _ (by omega)
      have e1 : ((i + l.length - 1) % l.length + k) % l.length =
          ((i + k) % l.length + l.length - 1) % l.length := by
        have a : (i + k) % l.length + l.length - 1 = (i + k) % l.length + (l.length - 1) := by
          omega
        rw [Nat.mod_add_mod, a, Nat.mod_add_mod]
        congr 1
        omega
      have e2 : ((i + 1) % l.length + k) % l.length = ((i + k) % l.length + 1) % l.length := by
        rw [Nat.mod_add_mod, Nat.mod_add_mod]
        congr 1
        omega
      rw [if_pos hi, rotate_getD l k _ hm1, rotate_getD l k _ hi, rotate_getD l k _ hm2,
        rotate_getD (specNextRow l) k i (by rw [specNextRow_length]; exact hi),
        specNextRow_length, specNextRow_getD, if_pos hm3, e1, e2]
    · rw [if_neg hi, List.getD_eq_default _ _
        (by rw [List.length_rotate, specNextRow_length]; omega)]

/-- C25: the step has no physical edges. For valid states `s1`, `s2` (any size
`>= 1`) such that the current row of `s2` is the current row of `s1` circularly
rotated by `k` columns, the next row `prng30_step` computes from `s2` is the next row
it computes from `s1`, circularly rotated by `k` columns. -/
theorem prng30_step_rotation (s1 s2 : prng30_state) (k : Nat) (h1 : Valid s1)
    (h2 : Valid s2) (hrow : currentRow s2 = (currentRow s1).rotate k) :
    currentRow (prng30_step s2) = (currentRow (prng30_step s1)).rotate k := by
  rw [step_currentRow h2, step_currentRow h1, hrow, specNextRow_rotate]

theorem prng30_step_rotation_witness :
    Valid exampleState ∧ Valid exampleState3 ∧
      currentRow exampleState3 = (currentRow exampleState).rotate 1 ∧
      currentRow (prng30_step exampleState3) =
        (currentRow (prng30_step exampleState)).rotate 1 :=
  ⟨by decide, by decide, by decide,
    prng30_step_rotation exampleState exampleState3 1 (by decide) (by decide) (by decide)⟩

/-! ### The buffer `prng30_init` allocates, and accesses outside it -/

theorem init_with_eq (seed : Nat) (width : Int) :
    prng30_init_with (width * width).toNat seed width = prng30_init seed width := rfl

/-- While `width * width` fits an `int`, `calloc` is asked for `width * width` cells. -/
theorem calloc_cells_eq (width : Int) (h1 : 1 ≤ width) (h2 : width ≤ 46340) :
    calloc_cells width = (width * width).toNat := by
  have hle : width * width ≤ 46340 * 46340 := Int.mul_le_mul h2 h2 (by omega) (by omega)
  have h0 : 0 ≤ width * width := Int.mul_nonneg (by omega) (by omega)
  unfold calloc_cells
  norm_num at hle ⊢
  congr 1
  omega

theorem rd_checked_some (rows : List Nat) (i : Int) (h0 : 0 ≤ i)
    (h1 : i < (rows.length : Int)) : rd_checked rows i = some (rd rows i) := by
  unfold rd_checked
  rw [if_pos ⟨h0, h1⟩]

theorem wr_checked_some (rows : List Nat) (i : Int) (v : Nat) (h0 : 0 ≤ i)
    (h1 : i < (rows.length : Int)) : wr_checked rows i v = some (wr rows i v) := by
  unfold wr_checked
  rw [if_pos ⟨h0, h1⟩]

theorem wr_length (rows : List Nat) (i : Int) (v : Nat) : (wr rows i v).length = rows.length := by
  unfold wr
  rw [List.length_set]

theorem step_body_length (n r next : Int) (rows : List Nat) (j : Nat) :
    (prng30_step_body n r next rows j).length = rows.length := by
  unfold prng30_step_body
  exact wr_length _ _ _

theorem step_fold_length (n r next : Int) (js : List Nat) (rows : List Nat) :
    (js.foldl (prng30_step_body n r next) rows).length = rows.length := by
  induction js generalizing rows with
  | nil => rfl
  | cons j js ih =>
    rw [List.foldl_cons, ih, step_body_length]

/-- The buffer keeps its length under `prng30_step`, whatever the state. -/
theorem step_length_any (st : prng30_state) : (prng30_step st).rows.length = st.rows.length :=
  step_fold_length _ _ _ _ _

theorem iterate_length_any (st : prng30_state) (k : Nat) :
    (prng30_step^[k] st).rows.length = st.rows.length := by
  induction k with
  | zero => rfl
  | succ k ih => rw [Function.iterate_succ_apply', step_length_any, ih]

/-- Every access of the loop body at column `j` lies inside a buffer of `len` cells
that holds the rows `r` and `next` in full. -/
theorem step_body_checked_some (n r next : Int) (rows : List Nat) (j : Nat) (hn : 1 ≤ n)
    (hr0 : 0 ≤ r) (hnx0 : 0 ≤ next) (hj : (j : Int) < n)
    (hr : (r + 1) * n ≤ (rows.length : Int)) (hnx : (next + 1) * n ≤ (rows.length : Int)) :
    prng30_step_body_checked n r next rows j = some (prng30_step_body n r next rows j) := by
  have hl := tmod_bound ((j : Int) - 1 + n) n (by omega) hn
  have hrt := tmod_bound ((j : Int) + 1) n (by omega) hn
  have e1 : (r + 1) * n = r * n + n := by ring
  have e2 : (next + 1) * n = next * n + n := by ring
  have p1 : 0 ≤ r * n := Int.mul_nonneg hr0 (by omega)
  have p2 : 0 ≤ next * n := Int.mul_nonneg hnx0 (by omega)
  unfold prng30_step_body_checked prng30_step_body
  rw [rd_checked_some _ _ (by omega) (by omega), Option.some_bind,
    rd_checked_some _ _ (by omega) (by omega), Option.some_bind,
    rd_checked_some _ _ (by omega) (by omega), Option.some_bind,
    wr_checked_some _ _ _ (by omega) (by omega)]

theorem step_loop_checked_some (n r next : Int) (js : List Nat) (rows : List Nat)
    (hn : 1 ≤ n) (hr0 : 0 ≤ r) (hnx0 : 0 ≤ next) (hjs : ∀ j ∈ js, (j : Int) < n)
    (hr : (r + 1) * n ≤ (rows.length : Int)) (hnx : (next + 1) * n ≤ (rows.length : Int)) :
    prng30_step_loop_checked n r next js rows =
      some (js.foldl (prng30_step_body n r next) rows) := by
  induction js generalizing rows with
  | nil => rfl
  | cons j js ih =>
    simp only [prng30_step_loop_checked, List.foldl_cons]
    rw [step_body_checked_some n r next rows j hn hr0 hnx0
      (hjs j (List.mem_cons_self _ _)) hr hnx, Option.some_bind]
    apply ih _ (fun x hx => hjs x (List.mem_cons_of_mem _ hx))
    · rw [step_body_length]; exact hr
    · rw [step_body_length]; exact hnx

/-- When the buffer holds the current and the next row in full, `prng30_step` makes
no access outside it. -/
theorem step_checked_some (st : prng30_state) (hn : 1 ≤ st.size) (hr0 : 0 ≤ st.current_row)
    (hr : (st.current_row + 1) * st.size ≤ (st.rows.length : Int))
    (hnx : (Int.tmod (st.current_row + 1) st.size + 1) * st.size ≤ (st.rows.length : Int)) :
    prng30_step_checked st = some (prng30_step st) := by
  have hnext := tmod_bound (st.current_row + 1) st.size (by omega) hn
  unfold prng30_step_checked prng30_step
  simp only
  rw [step_loop_checked_some _ _ _ _ _ hn hr0 hnext.1 ?_ hr hnx]
  · rfl
  · intro j hj
    have := List.mem_range.mp hj
    omega

/-- On a valid state `prng30_step` makes no access outside the buffer. -/
theorem step_checked_valid (st : prng30_state) (h : Valid st) :
    prng30_step_checked st = some (prng30_step st) := by
  obtain ⟨h1, h2, h3, h4, _⟩ := h
  have hnext := tmod_bound (st.current_row + 1) st.size (by omega) h1
  have hlen : (st.rows.length : Int) = st.size * st.size := by
    rw [h4, Int.toNat_of_nonneg (Int.mul_nonneg (by omega) (by omega))]
  have b1 : (st.current_row + 1) * st.size ≤ st.size * st.size :=
    Int.mul_le_mul_of_nonneg_right (by omega) (by omega)
  have b2 : (Int.tmod (st.current_row + 1) st.size + 1) * st.size ≤ st.size * st.size :=
    Int.mul_le_mul_of_nonneg_right (by omega) (by omega)
  exact step_checked_some st h1 h2 (by rw [hlen]; exact b1) (by rw [hlen]; exact b2)

theorem wr_checked_none (rows : List Nat) (i : Int) (v : Nat)
    (h : (rows.length : Int) ≤ i) : wr_checked rows i v = none := by
  unfold wr_checked
  rw [if_neg (by omega)]

theorem step_body_checked_none (n r next : Int) (rows : List Nat) (j : Nat)
    (h : (rows.length : Int) ≤ next * n + (j : Int)) :
    prng30_step_body_checked n r next rows j = none := by
  unfold prng30_step_body_checked
  cases rd_checked rows (r * n + Int.tmod ((j : Int) - 1 + n) n) with
  | none => rfl
  | some left =>
    cases rd_checked rows (r * n + (j : Int)) with
    | none => rfl
    | some mid =>
      cases rd_checked rows (r * n + Int.tmod ((j : Int) + 1) n) with
      | none => rfl
      | some right =>
        simp only [Option.some_bind]
        exact wr_checked_none _ _ _ h

theorem wr_checked_length (rows rows2 : List Nat) (i : Int) (v : Nat)
    (h : wr_checked rows i v = some rows2) : rows2.length = rows.length := by
  unfold wr_checked at h
  split at h
  · rw [← Option.some.inj h, wr_length]
  · exact absurd h (by simp)

theorem step_body_checked_length (n r next : Int) (rows rows2 : List Nat) (j : Nat)
    (h : prng30_step_body_checked n r next rows j = some rows2) :
    rows2.length = rows.length := by
  unfold prng30_step_body_checked at h
  cases h1 : rd_checked rows (r * n + Int.tmod ((j : Int) - 1 + n) n) with
  | none => rw [h1] at h; exact absurd h (by simp)
  | some left =>
    cases h2 : rd_checked rows (r * n + (j : Int)) with
    | none => rw [h1, h2] at h; exact absurd h (by simp)
    | some mid =>
      cases h3 : rd_checked rows (r * n + Int.tmod ((j : Int) + 1) n) with
      | none => rw [h1, h2, h3] at h; exact absurd h (by simp)
      | some right =>
        rw [h1, h2, h3] at h
        simp only [Option.some_bind] at h
        exact wr_checked_length _ _ _ _ h

/-- Once a column of the loop writes outside the buffer the loop fails. -/
theorem step_loop_checked_none (n r next : Int) (js : List Nat) (rows : List Nat) (j : Nat)
    (hj : j ∈ js) (h : (rows.length : Int) ≤ next * n + (j : Int)) :
    prng30_step_loop_checked n r next js rows = none := by
  induction js generalizing rows with
  | nil => exact absurd hj (List.not_mem_nil _)
  | cons x xs ih =>
    simp only [prng30_step_loop_checked]
    cases hb : prng30_step_body_checked n r next rows x with
    | none => rfl
    | some rows2 =>
      rw [Option.some_bind]
      rcases List.mem_cons.mp hj with hx | hx
      · subst hx
        rw [step_body_checked_none n r next rows j h] at hb
        exact absurd hb (by simp)
      · apply ih rows2 hx
        rw [step_body_checked_length n r next rows rows2 x hb]
        exact h

theorem step_checked_none (st : prng30_state) (j : Nat) (hj : (j : Int) < st.size)
    (h : (st.rows.length : Int) ≤ Int.tmod (st.current_row + 1) st.size * st.size + (j : Int)) :
    prng30_step_checked st = none := by
  unfold prng30_step_checked
  simp only
  rw [step_loop_checked_none _ _ _ _ _ j (List.mem_range.mpr (by omega)) h]
  rfl

theorem derive_length (seed : Nat) (width : Int) (rows : List Nat) :
    (prng30_init_derive seed width rows).length = rows.length := by
  unfold prng30_init_derive
  generalize List.range width.toNat = l
  induction l generalizing rows with
  | nil => rfl
  | cons x xs ih =>
    rw [List.foldl_cons, ih]
    split
    · exact wr_length _ _ _
    · exact wr_length _ _ _

theorem flip_length (width : Int) (rows : List Nat) :
    (prng30_init_flip width rows).length = rows.length := by
  unfold prng30_init_flip
  generalize List.range ((width.toNat + 6) / 7) = l
  induction l generalizing rows with
  | nil => rfl
  | cons x xs ih => rw [List.foldl_cons, ih, wr_length]

theorem seeded_with_length (cells seed : Nat) (width : Int) :
    (prng30_init_seeded_with cells seed width).rows.length = cells := by
  unfold prng30_init_seeded_with
  simp only
  split
  · rw [flip_length, derive_length, List.length_replicate]
  · rw [derive_length, List.length_replicate]

theorem init_with_length (cells seed : Nat) (width : Int) :
    (prng30_init_with cells seed width).rows.length = cells := by
  unfold prng30_init_with
  rw [iterate_length_any, seeded_with_length]

theorem step_size_any (st : prng30_state) : (prng30_step st).size = st.size := rfl

theorem iterate_size_any (st : prng30_state) (k : Nat) :
    (prng30_step^[k] st).size = st.size := by
  induction k with
  | zero => rfl
  | succ k ih => rw [Function.iterate_succ_apply', step_size_any, ih]

/-- From row 0 the row index counts the steps, as long as it stays below `size`. -/
theorem iterate_current_row_zero (st : prng30_state) (k : Nat) (h0 : st.current_row = 0)
    (hk : (k : Int) < st.size) : (prng30_step^[k] st).current_row = (k : Int) := by
  induction k with
  | zero => simpa using h0
  | succ k ih =>
    rw [Function.iterate_succ_apply']
    show Int.tmod ((prng30_step^[k] st).current_row + 1) (prng30_step^[k] st).size = _
    rw [ih (by push_cast at hk; omega), iterate_size_any]
    have : Int.tmod ((k : Int) + 1) st.size = (k : Int) + 1 := by
      apply Int.tmod_eq_of_lt (by omega)
      push_cast at hk; omega
    rw [this]; push_cast; rfl

/-- A warm-up of `k` steps from row `r` stays inside a buffer that holds the rows
`0 .. r + k` in full. -/
theorem warmup_checked_some (k : Nat) (st : prng30_state) (r : Nat)
    (hr : st.current_row = (r : Int)) (hk : ((r + k : Nat) : Int) < st.size)
    (hlen : (((r + k + 1 : Nat) : Int)) * st.size ≤ (st.rows.length : Int)) :
    prng30_warmup_checked k st = some (prng30_step^[k] st) := by
  induction k generalizing st r with
  | zero => rfl
  | succ k ih =>
    push_cast at hk hlen
    have hn : 1 ≤ st.size := by omega
    have ht : Int.tmod (st.current_row + 1) st.size = (r : Int) + 1 := by
      rw [hr]
      exact Int.tmod_eq_of_lt (by omega) (by omega)
    have hmono : ∀ a : Int, a ≤ (r : Int) + ((k : Int) + 1) + 1 →
        a * st.size ≤ (st.rows.length : Int) := fun a ha =>
      le_trans (Int.mul_le_mul_of_nonneg_right ha (by omega)) hlen
    have hs : prng30_step_checked st = some (prng30_step st) :=
      step_checked_some st hn (by omega) (by rw [hr]; exact hmono _ (by omega))
        (by rw [ht]; exact hmono _ (by omega))
    simp only [prng30_warmup_checked]
    rw [hs, Option.some_bind, Function.iterate_succ_apply]
    apply ih (prng30_step st) (r + 1)
    · show Int.tmod (st.current_row + 1) st.size = _
      rw [ht]; push_cast; rfl
    · rw [step_size_any]; push_cast; omega
    · rw [step_size_any, step_length_any]; push_cast
      exact hmono _ (by omega)

theorem init_with_wide (cells seed : Nat) (width : Int) (h : 128 < width) :
    prng30_init_with cells seed width =
      prng30_step^[50] (prng30_init_seeded_with cells seed width) := by
  simp only [prng30_init_with]
  rw [if_pos (by omega)]

/-- C14 at width 65562: `calloc(width * width, ...)` multiplies in `int`, the product
4298375844 wraps to 3408548, and the buffer has that many cells, fewer than
`size * size`. The first row and the 50 warm-up steps (rows 0 to 50, the last index
51 * 65562 - 1 = 3343661) stay inside it, so `prng30_init` returns a state with
`size = 65562`, `current_row = 50` and a buffer of 3408548 cells; the next
`prng30_step` writes row 51 and leaves the buffer (at column 64886, index 3408548). -/
theorem prng30_init_alloc_overflow :
    calloc_cells 65562 = 3408548 ∧ (3408548 : Int) < 65562 * 65562 ∧
      (65562 : Int) ≤ 3408548 ∧
      prng30_warmup_checked 50 (prng30_init_seeded_with (calloc_cells 65562) 1 65562) =
        some (prng30_init_with (calloc_cells 65562) 1 65562) ∧
      (prng30_init_with (calloc_cells 65562) 1 65562).size = 65562 ∧
      (prng30_init_with (calloc_cells 65562) 1 65562).current_row = 50 ∧
      (prng30_init_with (calloc_cells 65562) 1 65562).rows.length = 3408548 ∧
      ((prng30_init_with (calloc_cells 65562) 1 65562).rows.length : Int) <
        (prng30_init_with (calloc_cells 65562) 1 65562).size *
          (prng30_init_with (calloc_cells 65562) 1 65562).size ∧
      prng30_step_checked (prng30_init_with (calloc_cells 65562) 1 65562) = none := by
  have hc : calloc_cells 65562 = 3408548 := by decide
  have hw : prng30_init_with 3408548 1 65562 =
      prng30_step^[50] (prng30_init_seeded_with 3408548 1 65562) :=
    init_with_wide _ _ _ (by decide)
  have hsz : (prng30_init_with 3408548 1 65562).size = 65562 := by
    rw [hw, iterate_size_any]; rfl
  have hrow : (prng30_init_with 3408548 1 65562).current_row = 50 := by
    rw [hw]
    exact iterate_current_row_zero _ 50 rfl (by decide)
  have hlen : (prng30_init_with 3408548 1 65562).rows.length = 3408548 :=
    init_with_length _ _ _
  rw [hc]
  refine ⟨rfl, by decide, by decide, ?_, hsz, hrow, hlen, ?_, ?_⟩
  · rw [hw]
    apply warmup_checked_some 50 _ 0 rfl
    · decide
    · rw [seeded_with_length]; decide
  · rw [hlen, hsz]; decide
  · apply step_checked_none _ 64886
    · rw [hsz]; decide
    · rw [hlen, hrow, hsz]; decide

end Prng30
